import Mathlib

/-!
# mpdviz: waveform and spectrum frame loops

A shallow embedding of `mpdviz.go` (functions `size`, `drawWave`, `drawSpectrum` and the
intensity ramps built in `main`).

Modelling conventions

* Go `int` values are `Int`; `/` and `%` on them are the truncating `Int.tdiv` and `Int.tmod`.
  Widths, heights and block lengths are far below `2^63`, so no wrap-around is modelled.
* `float64` values are rationals and every floating point operation is the exact rational
  operation followed by `f64`, the rounding to the nearest binary64 number (ties to even,
  53-bit significand, gradual underflow below `2^-1022`).  Infinities and NaN are not
  modelled: the embedding agrees with the program as long as no result reaches `2^1024` in
  magnitude and no division by zero yields a non-zero quotient.  `int(x)` truncates toward
  zero.
* Conversions from `int` to `float64` are exact: every `int` converted (a 16-bit sample,
  `*step`, `h/2`, `h`, `len(iColors)-1`) is far below `2^53` in magnitude.
* The terminal, the input file and the end channel are observed through a trace of events
  (`SetCell`, `Flush`, `Clear`, block reads, plan executions, `close(end)`).
* `termbox.Size` is an oracle indexed by the number of calls made so far.
* The FFTW transform is a parameter giving the magnitude of every output bin.
* A run-time panic (negative `make` length, index out of range) ends the trace.
-/

namespace Mpdviz

/-! ## Go primitives -/

/-- Go integer division: the quotient is truncated toward zero. -/
def goDiv (a b : Int) : Int := Int.tdiv a b

/-- Go integer remainder: it has the sign of the dividend. -/
def goMod (a b : Int) : Int := Int.tmod a b

/-- Go conversion `int(x)` of a finite float: the fraction is discarded (truncation toward
zero). -/
def goInt (x : ℚ) : Int := Int.tdiv x.num x.den

/-- Rounding of a rational to the nearest integer, ties to the even one. -/
def roundEven (x : ℚ) : Int :=
  if x - (⌊x⌋ : ℚ) < 1 / 2 then ⌊x⌋
  else if 1 / 2 < x - (⌊x⌋ : ℚ) then ⌊x⌋ + 1
  else if ⌊x⌋ % 2 = 0 then ⌊x⌋ else ⌊x⌋ + 1

/-- Binary exponent `e` of the binade `[2^e, 2^(e+1))` that holds `|x|`, not below `-1022`,
the exponent of the smallest normal binary64 numbers. -/
def expo (x : ℚ) : Int := max (Int.log 2 |x|) (-1022)

/-- Rounding to binary64: the multiple of `2^(e-52)` nearest to `x`, ties to even, where `e`
is the exponent of `x`.  It is the result Go computes for a `float64` operation whose exact
result is `x`. -/
def f64 (x : ℚ) : ℚ := (roundEven (x / 2 ^ (expo x - 52)) : ℚ) * 2 ^ (expo x - 52)

/-- Go slice indexing `xs[i]` with an `int` index: `none` stands for the index-out-of-range
panic. -/
def index {α : Type} (xs : List α) (i : Int) : Option α :=
  if i < 0 then none else xs.get? i.toNat

/-- Go `make([]T, n)`: a zeroed slice, or `none` for the panic on a negative length. -/
def makeSlice {α : Type} (zero : α) (n : Int) : Option (List α) :=
  if n < 0 then none else some (List.replicate n.toNat zero)

/-! ## Terminal and trace -/

/-- The four glyphs drawn by the program: `'▀'`, `'▄'`, `'┃'`, `'╻'`. -/
inductive Glyph
  | upperHalf
  | lowerHalf
  | fullBar
  | halfBar
  deriving DecidableEq, Repr

/-- Result of one `binary.Read` call: `nil`, `io.EOF`, or any other error. -/
inductive ReadResult
  | filled
  | eof
  | failed
  deriving DecidableEq, Repr

/-- Observable actions of the frame loops. -/
inductive Event
  | setCell (x y : Int) (ch : Glyph) (fg bg : Nat)
  | flush
  | clear (fg bg : Nat)
  | read (n : Nat) (res : ReadResult)
  | execute (w : Int) (nIn nRaw nOut : Nat) (planIn planOut : Nat)
  | closeEnd
  deriving DecidableEq, Repr

/-- How a loop run ended: `close(end)` and return, a run-time panic, or still running when
the iteration budget was used up. -/
inductive Exit
  | closed
  | panicked
  | running
  deriving DecidableEq, Repr

/-- Result of one loop iteration. -/
inductive Step (σ : Type)
  | next (s : σ) (ev : List Event)
  | stop (ev : List Event)
  | panic (ev : List Event)

/-- Iterate a loop body at most `fuel` times, collecting the trace. -/
def run {σ : Type} (body : σ → Step σ) : Nat → σ → List Event × Exit
  | 0, _ => ([], Exit.running)
  | fuel + 1, s =>
    match body s with
    | Step.next s1 ev => (ev ++ (run body fuel s1).1, (run body fuel s1).2)
    | Step.stop ev => (ev, Exit.closed)
    | Step.panic ev => (ev, Exit.panicked)

/-- Flags and colour globals read by the drawing functions (`*step`, `*scale`, `*icolor`,
`iColors`, and the initial values of `on` and `off`). -/
structure Config where
  step : Int
  scale : ℚ
  icolor : Bool
  iColors : List Nat
  colorOn : Nat
  colorOff : Nat

/-- The function `size`: the terminal size with the height doubled.  `term k` is the result
of the `k`-th call of `termbox.Size`. -/
def size (term : Nat → Int × Int) (k : Nat) : Int × Int :=
  ((term k).1, (term k).2 * 2)

/-! ## Input file -/

/-- What the file delivers next: one 16-bit sample, or an I/O error of the device. -/
inductive Item
  | sample (v : Int)
  | ioError
  deriving DecidableEq, Repr

/-- Collect `n` samples (`io.ReadFull`): `none` when the data ends or an error occurs first;
the items consumed are removed from the file. -/
def takeSamples : Nat → List Item → Option (List Int) × List Item
  | 0, rest => (some [], rest)
  | _ + 1, [] => (none, [])
  | _ + 1, Item.ioError :: rest => (none, rest)
  | n + 1, Item.sample v :: rest =>
    ((takeSamples n rest).1.map (fun (d : List Int) => v :: d), (takeSamples n rest).2)

/-- The call `binary.Read(file, binary.LittleEndian, &inRaw)`: result, new contents of the
block and rest of the file.  An empty block is filled without touching the file; `io.EOF` is
reported only when no data at all is left; on any error the block is left as it was. -/
def readBlock (buf : List Int) (file : List Item) : ReadResult × List Int × List Item :=
  if buf.length = 0 then (ReadResult.filled, buf, file)
  else
    match file with
    | [] => (ReadResult.eof, buf, [])
    | _ :: _ =>
      match takeSamples buf.length file with
      | (some d, rest) => (ReadResult.filled, d, rest)
      | (none, rest) => (ReadResult.failed, buf, rest)

/-! ## Waveform mode (`drawWave`) -/

/-- The accumulation loop `for i := 0; i < *step; i++ { v += float64(inRaw[pos**step+i]) }`. -/
def waveSum (step : Int) (inRaw : List Int) (pos : Int) : Option ℚ :=
  (List.range step.toNat).foldlM
    (fun (v : ℚ) (i : Nat) =>
      (index inRaw (pos * step + (i : Int))).map (fun (x : Int) => f64 (v + (x : ℚ))))
    (0 : ℚ)

/-- The value divided by the step, `v/float64(*step)`, the first operand of the expression
that gives the vertical position. -/
def waveMean (step : Int) (inRaw : List Int) (pos : Int) : Option ℚ :=
  (waveSum step inRaw pos).map (fun (v : ℚ) => f64 (v / (step : ℚ)))

/-- The vertical position `vi := int(m/(math.MaxInt16/half_h) + half_h)` with
`half_h := float64(h / 2)`, where `m` is the value `v/float64(*step)`. -/
def wavePos (h : Int) (m : ℚ) : Int :=
  goInt (f64 (f64 (m / f64 (32767 / ((goDiv h 2 : Int) : ℚ))) + ((goDiv h 2 : Int) : ℚ)))

/-- The cell written for a position: `'▀'` when `vi%2 == 0`, `'▄'` otherwise, both at row
`vi/2`. -/
def waveCell (x vi : Int) (fg bg : Nat) : Event :=
  if goMod vi 2 = 0 then Event.setCell x (goDiv vi 2) Glyph.upperHalf fg bg
  else Event.setCell x (goDiv vi 2) Glyph.lowerHalf fg bg

/-- The part of the loop body of `drawWave` after the frame boundary: the cells written for
column `pos` (`none` when the block is indexed out of range). -/
def waveColumn (cfg : Config) (h : Int) (inRaw : List Int) (pos : Int) : Option (List Event) :=
  (waveMean cfg.step inRaw pos).map
    (fun (m : ℚ) => [waveCell pos (wavePos h m) cfg.colorOn cfg.colorOff])

/-- Local variables of `drawWave`, the unread part of the file and the number of
`termbox.Size` calls made. -/
structure WaveState where
  pos : Int
  w : Int
  h : Int
  inRaw : List Int
  file : List Item
  calls : Nat

/-- The block kept or allocated at a frame boundary of `drawWave`:
`if s := w * *step; len(inRaw) != s { inRaw = make([]int16, s) }` for the new width. -/
def waveBlock (cfg : Config) (term : Nat → Int × Int) (s : WaveState) : Option (List Int) :=
  if (s.inRaw.length : Int) ≠ (size term s.calls).1 * cfg.step
  then makeSlice (0 : Int) ((size term s.calls).1 * cfg.step) else some s.inRaw

/-- The block `if pos >= w { ... }` of `drawWave`: new size, block reallocation, block read,
return on `io.EOF`, otherwise `Flush` and `Clear`. -/
def waveBoundary (cfg : Config) (term : Nat → Int × Int) (s : WaveState) : Step WaveState :=
  match waveBlock cfg term s with
  | none => Step.panic []
  | some buf =>
    match readBlock buf s.file with
    | (ReadResult.eof, _, _) => Step.stop [Event.read buf.length ReadResult.eof, Event.closeEnd]
    | (res, buf1, file1) =>
      Step.next
        { pos := 0, w := (size term s.calls).1, h := (size term s.calls).2,
          inRaw := buf1, file := file1, calls := s.calls + 1 }
        [Event.read buf.length res, Event.flush, Event.clear cfg.colorOff cfg.colorOff]

/-- One iteration of `for pos := 0; ; pos++ { ... }` in `drawWave`. -/
def waveIter (cfg : Config) (term : Nat → Int × Int) (s : WaveState) : Step WaveState :=
  match (if s.pos ≥ s.w then waveBoundary cfg term s else Step.next s []) with
  | Step.next s1 ev =>
    match waveColumn cfg s1.h s1.inRaw s1.pos with
    | none => Step.panic ev
    | some cells => Step.next { s1 with pos := s1.pos + 1 } (ev ++ cells)
  | Step.stop ev => Step.stop ev
  | Step.panic ev => Step.panic ev

/-- The state of `drawWave` when the loop is entered: `w, h := size()` and
`inRaw := make([]int16, w**step)`. -/
def waveInit (cfg : Config) (term : Nat → Int × Int) (file : List Item) : Option WaveState :=
  (makeSlice (0 : Int) ((size term 0).1 * cfg.step)).map
    (fun (buf : List Int) =>
      { pos := 0, w := (size term 0).1, h := (size term 0).2,
        inRaw := buf, file := file, calls := 1 })

/-- The function `drawWave`, run for at most `fuel` loop iterations. -/
def drawWave (cfg : Config) (term : Nat → Int × Int) (file : List Item) (fuel : Nat) :
    List Event × Exit :=
  match waveInit cfg term file with
  | none => ([], Exit.panicked)
  | some s => run (waveIter cfg term) fuel s

/-! ## Spectrum mode (`drawSpectrum`) -/

/-- The magnitude `v := cmplx.Abs(out[i]) / 1e5 * hf / *scale` with `hf := float64(h)`;
`absBin` is `cmplx.Abs(out[i])`. -/
def spectrumMag (scale : ℚ) (absBin : ℚ) (h : Int) : ℚ :=
  f64 (f64 (f64 (absBin / 100000) * (h : ℚ)) / scale)

/-- The ramp index `int(math.Min(float64(len(iColors)-1), (v/hf)*float64(len(iColors)-1)))`;
`n` is `len(iColors)`. -/
def intensityIndex (n : Nat) (v hf : ℚ) : Int :=
  goInt (min ((((n : Int) - 1 : Int)) : ℚ)
    (f64 (f64 (v / hf) * ((((n : Int) - 1 : Int)) : ℚ))))

/-- The values taken by `j` in `for j := hi; j > lo; j--`. -/
def loopDown (hi lo : Int) : List Int :=
  (List.range (hi - lo).toNat).map (fun (k : Nat) => hi - (k : Int))

/-- The cells of one bar: the loop `for j := h - 1; j > h-vi; j--` writing `'┃'` at row
`j/2`, then `'╻'` at row `(h-vi)/2` when `vi%2 != 0`. -/
def spectrumBar (i h vi : Int) (fg bg : Nat) : List Event :=
  (loopDown (h - 1) (h - vi)).map
      (fun (j : Int) => Event.setCell i (goDiv j 2) Glyph.fullBar fg bg)
    ++ (if goMod vi 2 ≠ 0 then [Event.setCell i (goDiv (h - vi) 2) Glyph.halfBar fg bg] else [])

/-- The body of `for i := 0; i < w; i++` in `drawSpectrum` for column `i`: the new value of
the global `on` and the cells written.  `absOut k` is `cmplx.Abs(out[k])` and `nOut` is
`len(out)`; `none` stands for an index-out-of-range panic on `out` or on `iColors`. -/
def spectrumColumn (cfg : Config) (h : Int) (absOut : Nat → ℚ) (nOut : Nat) (fg : Nat)
    (i : Nat) : Option (Nat × List Event) :=
  if nOut ≤ i then none
  else
    if cfg.icolor then
      (index cfg.iColors
          (intensityIndex cfg.iColors.length (spectrumMag cfg.scale (absOut i) h) (h : ℚ))).map
        (fun (c : Nat) =>
          (c, spectrumBar i h (goInt (spectrumMag cfg.scale (absOut i) h)) c cfg.colorOff))
    else
      some (fg, spectrumBar i h (goInt (spectrumMag cfg.scale (absOut i) h)) fg cfg.colorOff)

/-- The loop `for i := 0; i < w; i++` over the listed columns: the cells written, the final
value of `on`, and whether the loop completed without a panic. -/
def spectrumColumns (cfg : Config) (h : Int) (absOut : Nat → ℚ) (nOut : Nat) :
    Nat → List Nat → List Event × Nat × Bool
  | fg, [] => ([], fg, true)
  | fg, i :: rest =>
    match spectrumColumn cfg h absOut nOut fg i with
    | none => ([], fg, false)
    | some (fg1, cells) =>
      (cells ++ (spectrumColumns cfg h absOut nOut fg1 rest).1,
        (spectrumColumns cfg h absOut nOut fg1 rest).2)

/-- Local variables of `drawSpectrum`, the global `on`, the unread part of the file and the
number of `termbox.Size` calls made.  `nOut` is `len(out)`; `planIn` and `planOut` are the
lengths of the arrays the current plan was created for. -/
structure SpecState where
  w : Int
  h : Int
  samples : Int
  resn : Int
  inBuf : List ℚ
  inRaw : List Int
  nOut : Nat
  planIn : Nat
  planOut : Nat
  fg : Nat
  file : List Item
  calls : Nat

/-- The allocation sequence shared by the declaration block and the resize branch of
`drawSpectrum`: `samples = (w-1)*2`, `resn = w`, fresh `in`, `inRaw`, `out` and a plan for
them.  `none` stands for the panic of `make` on a negative length. -/
def allocate (s : SpecState) : Option SpecState :=
  if (s.w - 1) * 2 < 0 then none
  else
    some { s with
      resn := s.w, samples := (s.w - 1) * 2,
      inBuf := List.replicate ((s.w - 1) * 2).toNat 0,
      inRaw := List.replicate ((s.w - 1) * 2).toNat 0,
      nOut := s.w.toNat,
      planIn := ((s.w - 1) * 2).toNat, planOut := s.w.toNat }

/-- The loop `for i := 0; i < samples; i++ { in[i] = float64(inRaw[i]) }`; `none` stands for
an index-out-of-range panic. -/
def copyIn (samples : Int) (inBuf : List ℚ) (inRaw : List Int) : Option (List ℚ) :=
  if samples.toNat ≤ inBuf.length ∧ samples.toNat ≤ inRaw.length then
    some ((inRaw.take samples.toNat).map (fun (x : Int) => (x : ℚ)) ++ inBuf.drop samples.toNat)
  else none

/-- The resize branch at the top of the loop of `drawSpectrum`:
`if resn != w && w != 1 { ... }`. -/
def resize (s : SpecState) : Option SpecState :=
  if s.resn ≠ s.w ∧ s.w ≠ 1 then allocate s else some s

/-- One iteration of the `for { ... }` loop of `drawSpectrum`.  `mag inp k` is the magnitude
of output bin `k` after the plan was executed on the input `inp`. -/
def spectrumFrame (cfg : Config) (term : Nat → Int × Int) (mag : List ℚ → Nat → ℚ)
    (s : SpecState) : Step SpecState :=
  match resize s with
  | none => Step.panic []
  | some s1 =>
    match readBlock s1.inRaw s1.file with
    | (ReadResult.eof, _, _) =>
      Step.stop [Event.read s1.inRaw.length ReadResult.eof, Event.closeEnd]
    | (res, buf, file1) =>
      match copyIn s1.samples s1.inBuf buf with
      | none => Step.panic [Event.read s1.inRaw.length res]
      | some inp =>
        if (spectrumColumns cfg s1.h (mag inp) s1.nOut s1.fg (List.range s1.w.toNat)).2.2 then
          Step.next
            { s1 with
              w := (size term s1.calls).1, h := (size term s1.calls).2,
              inBuf := inp, inRaw := buf, file := file1, calls := s1.calls + 1,
              fg := (spectrumColumns cfg s1.h (mag inp) s1.nOut s1.fg
                      (List.range s1.w.toNat)).2.1 }
            ([Event.read s1.inRaw.length res,
              Event.execute s1.w inp.length buf.length s1.nOut s1.planIn s1.planOut]
              ++ (spectrumColumns cfg s1.h (mag inp) s1.nOut s1.fg (List.range s1.w.toNat)).1
              ++ [Event.flush, Event.clear cfg.colorOff cfg.colorOff])
        else
          Step.panic
            ([Event.read s1.inRaw.length res,
              Event.execute s1.w inp.length buf.length s1.nOut s1.planIn s1.planOut]
              ++ (spectrumColumns cfg s1.h (mag inp) s1.nOut s1.fg (List.range s1.w.toNat)).1)

/-- The state of `drawSpectrum` when the loop is entered: `w, h := size()` followed by the
declaration block. -/
def spectrumInit (cfg : Config) (term : Nat → Int × Int) (file : List Item) :
    Option SpecState :=
  allocate
    { w := (size term 0).1, h := (size term 0).2, samples := 0, resn := 0, inBuf := [],
      inRaw := [], nOut := 0, planIn := 0, planOut := 0, fg := cfg.colorOn, file := file,
      calls := 1 }

/-- The function `drawSpectrum`, run for at most `fuel` loop iterations. -/
def drawSpectrum (cfg : Config) (term : Nat → Int × Int) (mag : List ℚ → Nat → ℚ)
    (file : List Item) (fuel : Nat) : List Event × Exit :=
  match spectrumInit cfg term file with
  | none => ([], Exit.panicked)
  | some s => run (spectrumFrame cfg term mag) fuel s

/-! ## Intensity ramps (`main`) -/

/-- The ramp of mode `dumb`: blue, cyan, green, yellow, red, each raised by 8 unless `dim`
is set.  The five termbox colour constants are parameters. -/
def rampDumb (blue cyan green yellow red : Nat) (dim : Bool) : List Nat :=
  if dim then [blue, cyan, green, yellow, red]
  else [blue, cyan, green, yellow, red].map (fun (c : Nat) => c + 8)

/-- The ramp of mode `256`. -/
def ramp256 : List Nat :=
  [21, 27, 39, 45, 51, 86, 85, 84, 82, 154, 192, 220, 214, 208, 202, 196]

/-- The ramp of mode `grayscale`: `iColors[i] = i + 255 - num` for `i < num`, `num = 19`. -/
def rampGrayscale : List Nat :=
  (List.range 19).map (fun (i : Nat) => i + 255 - 19)

/-! ## Notions used to state the properties -/

/-- Rows of the cells of a trace that carry the full-bar glyph `'┃'`. -/
def fullRows (evs : List Event) : List Int :=
  evs.filterMap (fun e =>
    match e with
    | Event.setCell _ y Glyph.fullBar _ _ => some y
    | _ => none)

/-- Rows of the cells of a trace that carry the half-bar glyph `'╻'`. -/
def halfRows (evs : List Event) : List Int :=
  evs.filterMap (fun e =>
    match e with
    | Event.setCell _ y Glyph.halfBar _ _ => some y
    | _ => none)

/-- Arithmetic mean of the `step` samples of column `c`, those at block indices
`c*step .. (c+1)*step - 1` (follows the wording of the specification). -/
def columnMean (step : Nat) (block : List Int) (c : Nat) : ℚ :=
  ((∑ i in Finset.range step, block.getD (c * step + i) 0 : Int) : ℚ) / (step : ℚ)

/-- Zero, or a magnitude in the range of the normal binary64 numbers, where rounding
neither underflows nor overflows. -/
def normal64 (x : ℚ) : Prop :=
  x = 0 ∨ ((2 : ℚ) ^ (-1022 : Int) ≤ |x| ∧ |x| ≤ 2 ^ (1023 : Int))

/-- Consistency of the transform buffers of `drawSpectrum` with the width `resn` they were
allocated for, and of the plan with the buffers. -/
def SpecInv (s : SpecState) : Prop :=
  1 ≤ s.resn ∧ s.samples = (s.resn - 1) * 2 ∧ (s.inBuf.length : Int) = s.samples
    ∧ (s.inRaw.length : Int) = s.samples ∧ (s.nOut : Int) = s.resn
    ∧ s.planIn = s.inBuf.length ∧ s.planOut = s.nOut

/-- The property of a plan execution: when the current width is at least 2, the output has
`w` bins, the input buffer and the sample block have `2 (w - 1)` entries, and the plan was
created for arrays of these lengths. -/
def executeOk : Event → Prop
  | Event.execute w nIn nRaw nOut planIn planOut =>
    2 ≤ w → (nOut : Int) = w ∧ (nIn : Int) = 2 * (w - 1) ∧ (nRaw : Int) = 2 * (w - 1)
      ∧ planIn = nIn ∧ planOut = nOut
  | _ => True

/-- The events that are cell writes. -/
def isCell : Event → Prop
  | Event.setCell _ _ _ _ _ => True
  | _ => False

/-! ## Concrete inputs -/

/-- The flag defaults (`step = 2`, `scale = 2`, no intensity colouring, mode `dumb`); the
attribute values of `on` and `off` are arbitrary. -/
def cfgDefault : Config :=
  { step := 2, scale := 2, icolor := false, iColors := rampDumb 5 7 3 4 2 false,
    colorOn := 1, colorOff := 0 }

/-- A terminal of constant size: `w` columns and `height` rows. -/
def termFixed (w height : Int) : Nat → Int × Int := fun _ => (w, height)

/-- A terminal that is 3 columns wide at the first size query and 2 columns wide afterwards,
always 2 rows high. -/
def termShrink : Nat → Int × Int := fun k => if k = 0 then (3, 2) else (2, 2)

/-- Bin magnitudes of the 2-point real transform: `|x0 + x1|` and `|x0 - x1|`. -/
def dft2 : List ℚ → Nat → ℚ := fun inp k =>
  if k = 0 then |inp.getD 0 0 + inp.getD 1 0| else |inp.getD 0 0 - inp.getD 1 0|

/-- Bin magnitudes of the transform of an all-zero input. -/
def silence : List ℚ → Nat → ℚ := fun _ _ => 0

/-- A state of `drawWave` at a frame boundary (two columns, two rows, `step = 2`): the block
of four equal samples has been drawn and two samples are left in the file. -/
def waveAtBoundary : WaveState :=
  { pos := 2, w := 2, h := 4, inRaw := [-32767, -32767, -32767, -32767],
    file := [Item.sample (-32767), Item.sample (-32767)], calls := 2 }

/-- A state of `drawSpectrum` at the top of the loop (two columns, two rows): one block of
two samples has been drawn and one sample is left in the file. -/
def specAtRead : SpecState :=
  { w := 2, h := 4, samples := 2, resn := 2, inBuf := [25000, 25000],
    inRaw := [25000, 25000], nOut := 2, planIn := 2, planOut := 2, fg := 1,
    file := [Item.sample 25000], calls := 2 }

/-! ## Basic facts about the Go primitives -/

theorem goDiv_two_of_nonneg {a : Int} (h : 0 ≤ a) : goDiv a 2 = a / 2 :=
  Int.tdiv_eq_ediv h (by decide)

theorem goMod_two_of_nonneg {a : Int} (h : 0 ≤ a) : goMod a 2 = a % 2 :=
  Int.tmod_eq_emod h (by decide)

theorem goInt_of_nonneg {x : ℚ} (h : 0 ≤ x) : goInt x = ⌊x⌋ := by
  unfold goInt
  rw [Rat.floor_def]
  exact Int.tdiv_eq_ediv (Rat.num_nonneg.mpr h) (Int.ofNat_nonneg _)

theorem goInt_intCast (z : Int) : goInt (z : ℚ) = z := by
  simp [goInt]

theorem goInt_eq_of_nonneg {x : ℚ} (z : Int) (h0 : 0 ≤ z) (h1 : (z : ℚ) ≤ x)
    (h2 : x < (z : ℚ) + 1) : goInt x = z := by
  have hx : (0 : ℚ) ≤ x := le_trans (by exact_mod_cast h0) h1
  rw [goInt_of_nonneg hx, Int.floor_eq_iff]
  exact ⟨h1, h2⟩

theorem goInt_neg (x : ℚ) : goInt (-x) = -goInt x := by
  simp [goInt, Int.neg_tdiv]

theorem goInt_eq_zero {x : ℚ} (h1 : -1 < x) (h2 : x < 1) : goInt x = 0 := by
  rcases le_or_lt 0 x with hx | hx
  · exact goInt_eq_of_nonneg 0 le_rfl (by simpa using hx) (by simpa using h2)
  · have h3 : goInt (-x) = 0 :=
      goInt_eq_of_nonneg 0 le_rfl (by simp; linarith) (by simp; linarith)
    have h4 := goInt_neg x
    omega

theorem goInt_zero : goInt 0 = 0 := by simp [goInt]

theorem goInt_one : goInt 1 = 1 := by simp [goInt]

/-! ## Rounding to binary64 -/

theorem roundEven_intCast (n : Int) : roundEven (n : ℚ) = n := by
  simp [roundEven]

theorem abs_roundEven_sub_le (x : ℚ) : |(roundEven x : ℚ) - x| ≤ 1 / 2 := by
  have h1 := Int.floor_le x
  have h2 := Int.lt_floor_add_one x
  unfold roundEven
  split_ifs with a b c
  · rw [abs_le]; constructor <;> linarith
  · push_cast; rw [abs_le]; constructor <;> linarith
  · have : x - (⌊x⌋ : ℚ) = 1 / 2 := le_antisymm (not_lt.mp b) (not_lt.mp a)
    rw [abs_le]; constructor <;> linarith
  · have : x - (⌊x⌋ : ℚ) = 1 / 2 := le_antisymm (not_lt.mp b) (not_lt.mp a)
    push_cast; rw [abs_le]; constructor <;> linarith

theorem roundEven_nonneg {x : ℚ} (h : 0 ≤ x) : 0 ≤ roundEven x := by
  have h0 : 0 ≤ ⌊x⌋ := Int.floor_nonneg.mpr h
  unfold roundEven
  split_ifs <;> omega

theorem two_zpow_pos (k : Int) : (0 : ℚ) < 2 ^ k := zpow_pos (by norm_num) k

theorem f64_zero : f64 0 = 0 := by
  simp [f64, roundEven]

theorem f64_nonneg {x : ℚ} (h : 0 ≤ x) : 0 ≤ f64 x := by
  unfold f64
  have h1 : (0 : ℚ) ≤ x / 2 ^ (expo x - 52) := div_nonneg h (two_zpow_pos _).le
  have h2 : (0 : ℚ) ≤ (roundEven (x / 2 ^ (expo x - 52)) : ℚ) := by
    exact_mod_cast roundEven_nonneg h1
  exact mul_nonneg h2 (two_zpow_pos _).le

theorem log_lt_of_abs_lt {x : ℚ} (hx : x ≠ 0) {k : Int} (h : |x| < 2 ^ k) :
    Int.log 2 |x| < k := by
  have := (Int.lt_zpow_iff_log_lt (R := ℚ) (b := 2) (by norm_num) (abs_pos.mpr hx)).mp
    (by exact_mod_cast h)
  exact this

theorem le_log_of_le_abs {x : ℚ} (hx : x ≠ 0) {k : Int} (h : (2 : ℚ) ^ k ≤ |x|) :
    k ≤ Int.log 2 |x| := by
  have := (Int.zpow_le_iff_le_log (R := ℚ) (b := 2) (by norm_num) (abs_pos.mpr hx)).mp
    (by exact_mod_cast h)
  exact this

/-- Values `m * 2^k` with a 53-bit `m` and `k` not below the smallest subnormal exponent are
binary64 numbers: rounding leaves them unchanged. -/
theorem f64_dyadic (m k : Int) (hm : |m| < 2 ^ 53) (hk : -1074 ≤ k) :
    f64 ((m : ℚ) * 2 ^ k) = (m : ℚ) * 2 ^ k := by
  by_cases h0 : m = 0
  · subst h0
    simp [f64_zero]
  have hx : (m : ℚ) * 2 ^ k ≠ 0 :=
    mul_ne_zero (by exact_mod_cast h0) (two_zpow_pos k).ne'
  have habs : |(m : ℚ) * 2 ^ k| < 2 ^ (k + 53) := by
    rw [abs_mul, abs_of_pos (two_zpow_pos k), zpow_add₀ (by norm_num : (2 : ℚ) ≠ 0), mul_comm]
    have : |(m : ℚ)| < 2 ^ (53 : Int) := by
      have h := (Int.cast_lt (R := ℚ)).mpr hm
      rw [Int.cast_abs] at h
      norm_num at h ⊢
      exact h
    exact mul_lt_mul_of_pos_left this (two_zpow_pos k)
  have hlog := log_lt_of_abs_lt hx habs
  have he : expo ((m : ℚ) * 2 ^ k) - 52 ≤ k := by
    unfold expo
    rcases max_cases (Int.log 2 |(m : ℚ) * 2 ^ k|) (-1022) with ⟨h, _⟩ | ⟨h, _⟩ <;> omega
  obtain ⟨j, hj⟩ : ∃ j : Nat, k = expo ((m : ℚ) * 2 ^ k) - 52 + (j : Int) :=
    ⟨(k - (expo ((m : ℚ) * 2 ^ k) - 52)).toNat, by omega⟩
  unfold f64
  generalize expo ((m : ℚ) * 2 ^ k) - 52 = q at hj ⊢
  have hq : (m : ℚ) * 2 ^ k / 2 ^ q = ((m * 2 ^ j : Int) : ℚ) := by
    rw [hj, zpow_add₀ (by norm_num : (2 : ℚ) ≠ 0), zpow_natCast]
    push_cast
    field_simp
    ring
  rw [hq, roundEven_intCast, hj, zpow_add₀ (by norm_num : (2 : ℚ) ≠ 0), zpow_natCast]
  push_cast
  ring

theorem f64_intCast (n : Int) (hn : |n| < 2 ^ 53) : f64 (n : ℚ) = n := by
  have := f64_dyadic n 0 hn (by decide)
  simpa using this

/-- In the normal range rounding changes a value by at most `2^-53` of its magnitude. -/
theorem abs_f64_sub_le {x : ℚ} (h : (2 : ℚ) ^ (-1022 : Int) ≤ |x|) :
    |f64 x - x| ≤ 2 ^ (-53 : Int) * |x| := by
  have hx : x ≠ 0 := by
    intro h0
    rw [h0, abs_zero] at h
    exact absurd h (not_le.mpr (two_zpow_pos _))
  have hl : -1022 ≤ Int.log 2 |x| := le_log_of_le_abs hx h
  have he : expo x = Int.log 2 |x| := by
    unfold expo
    exact max_eq_left hl
  have hle : (2 : ℚ) ^ (Int.log 2 |x|) ≤ |x| := by
    have := Int.zpow_log_le_self (R := ℚ) (b := 2) (by norm_num) (abs_pos.mpr hx)
    exact_mod_cast this
  unfold f64
  rw [he]
  set q : ℚ := 2 ^ (Int.log 2 |x| - 52) with hq
  have hqpos : 0 < q := two_zpow_pos _
  have h1 := abs_roundEven_sub_le (x / q)
  have h2 : (roundEven (x / q) : ℚ) * q - x = ((roundEven (x / q) : ℚ) - x / q) * q := by
    field_simp
  rw [h2, abs_mul, abs_of_pos hqpos]
  have h3 : q = 2 ^ (-52 : Int) * 2 ^ (Int.log 2 |x|) := by
    rw [hq, ← zpow_add₀ (by norm_num : (2 : ℚ) ≠ 0)]
    congr 1
    ring
  have h4 : |(roundEven (x / q) : ℚ) - x / q| * q ≤ 1 / 2 * q :=
    mul_le_mul_of_nonneg_right h1 hqpos.le
  have h5 : (1 : ℚ) / 2 * q = 2 ^ (-53 : Int) * 2 ^ (Int.log 2 |x|) := by
    rw [h3, ← mul_assoc]
    congr 1
    norm_num
  calc |(roundEven (x / q) : ℚ) - x / q| * q ≤ 1 / 2 * q := h4
    _ = 2 ^ (-53 : Int) * 2 ^ (Int.log 2 |x|) := h5
    _ ≤ 2 ^ (-53 : Int) * |x| := mul_le_mul_of_nonneg_left hle (two_zpow_pos _).le

/-- Evaluation of the rounding at a value whose binade is known. -/
theorem f64_eval {x : ℚ} (e m : Int) (he : -1022 ≤ e) (h1 : (2 : ℚ) ^ e ≤ |x|)
    (h2 : |x| < 2 ^ (e + 1)) (hm : roundEven (x / 2 ^ (e - 52)) = m) :
    f64 x = (m : ℚ) * 2 ^ (e - 52) := by
  have hx : x ≠ 0 := by
    intro h0
    rw [h0, abs_zero] at h1
    exact absurd h1 (not_le.mpr (two_zpow_pos _))
  have hl : Int.log 2 |x| = e := by
    have a := le_log_of_le_abs hx h1
    have b := log_lt_of_abs_lt hx h2
    omega
  have hexp : expo x = e := by
    unfold expo
    rw [hl]
    exact max_eq_left he
  unfold f64
  rw [hexp, hm]

theorem f64_of_dyadic {x : ℚ} (m k : Int) (hx : x = (m : ℚ) * 2 ^ k) (hm : |m| < 2 ^ 53)
    (hk : -1074 ≤ k) : f64 x = x := by
  rw [hx]
  exact f64_dyadic m k hm hk

theorem abs_f64_sub_le_of_normal {x : ℚ} (h : normal64 x) :
    |f64 x - x| ≤ 2 ^ (-53 : Int) * |x| := by
  rcases h with h | ⟨h, _⟩
  · rw [h, f64_zero]
    simp
  · exact abs_f64_sub_le h

/-- Two successive relative perturbations: if `y` is within `a |x|` of `x` and `z` within
`u |y|` of `y`, then `z` is within `(a + u (1 + a)) |x|` of `x`. -/
theorem abs_sub_le_chain {x y z a u : ℚ} (hu : 0 ≤ u) (h1 : |y - x| ≤ a * |x|)
    (h2 : |z - y| ≤ u * |y|) : |z - x| ≤ (a + u * (1 + a)) * |x| := by
  have hy : |y| ≤ (1 + a) * |x| := by
    have := abs_add (y - x) x
    rw [sub_add_cancel] at this
    linarith
  have h3 : |z - x| ≤ |z - y| + |y - x| := by
    have := abs_add (z - y) (y - x)
    rw [sub_add_sub_cancel] at this
    exact this
  have h4 : u * |y| ≤ u * ((1 + a) * |x|) := mul_le_mul_of_nonneg_left hy hu
  nlinarith

/-! ## Waveform glyph selection -/

/-- C8: in `drawWave`, when the block covers the column (the accumulation and the division
by `step` yield a value `m`) and the computed vertical position `vi` is not negative,
exactly one cell is written for the column, at row `vi / 2`, with the upper-half glyph when
`vi` is even and the lower-half glyph when `vi` is odd; hence positions `2 r` and `2 r + 1`
are drawn in the same row `r` with different glyphs. -/
theorem waveColumn_glyph (cfg : Config) (h : Int) (inRaw : List Int) (pos : Int) (m : ℚ)
    (hm : waveMean cfg.step inRaw pos = some m) (hvi : 0 ≤ wavePos h m) :
    waveColumn cfg h inRaw pos =
        some [Event.setCell pos (wavePos h m / 2)
          (if wavePos h m % 2 = 0 then Glyph.upperHalf else Glyph.lowerHalf)
          cfg.colorOn cfg.colorOff]
      ∧ ∀ (x r : Int) (fg bg : Nat), 0 ≤ r →
          waveCell x (2 * r) fg bg = Event.setCell x r Glyph.upperHalf fg bg
            ∧ waveCell x (2 * r + 1) fg bg = Event.setCell x r Glyph.lowerHalf fg bg := by
  refine ⟨?_, ?_⟩
  · simp only [waveColumn, hm, Option.map_some', waveCell, goDiv_two_of_nonneg hvi,
      goMod_two_of_nonneg hvi]
    split <;> rfl
  · intro x r fg bg hr
    have h2 : (0 : Int) ≤ 2 * r := by omega
    have h3 : (0 : Int) ≤ 2 * r + 1 := by omega
    constructor
    · simp only [waveCell, goDiv_two_of_nonneg h2, goMod_two_of_nonneg h2]
      have e1 : 2 * r % 2 = 0 := by omega
      have e2 : 2 * r / 2 = r := by omega
      simp [e1, e2]
    · simp only [waveCell, goDiv_two_of_nonneg h3, goMod_two_of_nonneg h3]
      have e1 : (2 * r + 1) % 2 = 1 := by omega
      have e2 : (2 * r + 1) / 2 = r := by omega
      simp [e1, e2]

/-! ## Intensity ramp index -/

theorem intensityIndex_eq_floor (n : Nat) (h : Int) (v : ℚ) (hn : 1 ≤ n) (hh : 1 ≤ h)
    (hv : 0 ≤ v) :
    intensityIndex n v (h : ℚ)
      = min ⌊f64 (f64 (v / (h : ℚ)) * (((n : Int) - 1 : Int) : ℚ))⌋ ((n : Int) - 1) := by
  have hm : (0 : ℚ) ≤ (((n : Int) - 1 : Int) : ℚ) := by
    have : (0 : Int) ≤ (n : Int) - 1 := by omega
    exact_mod_cast this
  have hhq : (0 : ℚ) < (h : ℚ) := by exact_mod_cast (by omega : (0 : Int) < h)
  have hx : (0 : ℚ) ≤ f64 (f64 (v / (h : ℚ)) * (((n : Int) - 1 : Int) : ℚ)) :=
    f64_nonneg (mul_nonneg (f64_nonneg (div_nonneg hv hhq.le)) hm)
  unfold intensityIndex
  have hmono : Monotone (Int.floor : ℚ → Int) := Int.floor_mono
  rw [goInt_of_nonneg (le_min hm hx), hmono.map_min, Int.floor_intCast, min_comm]

/-- C6: with intensity colouring, for every non-empty ramp (in particular the three ramps
that `main` can configure, which have 5, 16 and 19 entries), every `h >= 1` and every
magnitude `v >= 0`, also when `v / h > 1`, the index used to select the ramp colour lies
in `[0, len(ramp) - 1]`, so the ramp lookup succeeds. -/
theorem intensityIndex_in_range (ramp : List Nat) (h : Int) (v : ℚ) (hr : ramp ≠ [])
    (hh : 1 ≤ h) (hv : 0 ≤ v) :
    (0 ≤ intensityIndex ramp.length v (h : ℚ)
        ∧ intensityIndex ramp.length v (h : ℚ) ≤ (ramp.length : Int) - 1
        ∧ (index ramp (intensityIndex ramp.length v (h : ℚ))).isSome = true)
      ∧ (∀ (blue cyan green yellow red : Nat) (dim : Bool),
          (rampDumb blue cyan green yellow red dim).length = 5)
      ∧ ramp256.length = 16 ∧ rampGrayscale.length = 19 := by
  have hn : 1 ≤ ramp.length := List.length_pos.mpr hr
  have hm : (0 : ℚ) ≤ (((ramp.length : Int) - 1 : Int) : ℚ) := by
    have : (0 : Int) ≤ (ramp.length : Int) - 1 := by omega
    exact_mod_cast this
  have hhq : (0 : ℚ) < (h : ℚ) := by exact_mod_cast (by omega : (0 : Int) < h)
  have hx : (0 : ℚ) ≤ f64 (f64 (v / (h : ℚ)) * (((ramp.length : Int) - 1 : Int) : ℚ)) :=
    f64_nonneg (mul_nonneg (f64_nonneg (div_nonneg hv hhq.le)) hm)
  have e := intensityIndex_eq_floor ramp.length h v hn hh hv
  have h0 : 0 ≤ intensityIndex ramp.length v (h : ℚ) := by
    rw [e]
    exact le_min (Int.floor_nonneg.mpr hx) (by omega)
  have h1 : intensityIndex ramp.length v (h : ℚ) ≤ (ramp.length : Int) - 1 := by
    rw [e]
    exact min_le_right _ _
  refine ⟨⟨h0, h1, ?_⟩, ?_, rfl, rfl⟩
  · have hlt : (intensityIndex ramp.length v (h : ℚ)).toNat < ramp.length := by omega
    simp only [index, not_lt.mpr h0, if_false, List.get?_eq_getElem?]
    rw [List.getElem?_eq_getElem hlt]
    rfl
  · intro blue cyan green yellow red dim
    cases dim <;> rfl

/-- C7, amended: with intensity colouring, for every non-empty ramp, every `h >= 1` and
every magnitude `v >= 0`, the ramp index selected for the column is
`min(floor(p), len(ramp) - 1)`, where `p` is the float64 value of `(v/h) * (len(ramp) - 1)`
(the quotient and the product are each rounded to the nearest float64): `p` is truncated,
not rounded to the nearest integer, before it is used as an index. -/
theorem intensityIndex_truncates (ramp : List Nat) (h : Int) (v : ℚ) (hr : ramp ≠ [])
    (hh : 1 ≤ h) (hv : 0 ≤ v) :
    intensityIndex ramp.length v (h : ℚ)
      = min ⌊f64 (f64 (v / (h : ℚ)) * (((ramp.length : Int) - 1 : Int) : ℚ))⌋
          ((ramp.length : Int) - 1) :=
  intensityIndex_eq_floor ramp.length h v (List.length_pos.mpr hr) hh hv

/-- C7, counterexample: for the five-entry ramp, `h = 16` and `v = 15` the product
`(v/h) * 4` is `3.75` (exactly, also in float64); the code selects index 3, while rounding
gives `min(round(3.75), 4) = 4`. -/
theorem intensityIndex_not_rounded :
    intensityIndex (rampDumb 5 7 3 4 2 false).length 15 ((16 : Int) : ℚ) = 3
      ∧ min (round (((15 : ℚ) / ((16 : Int) : ℚ))
                * ((((rampDumb 5 7 3 4 2 false).length : Int) - 1 : Int) : ℚ)))
            (((rampDumb 5 7 3 4 2 false).length : Int) - 1) = 4
      ∧ intensityIndex (rampDumb 5 7 3 4 2 false).length 15 ((16 : Int) : ℚ)
          ≠ min (round (((15 : ℚ) / ((16 : Int) : ℚ))
                  * ((((rampDumb 5 7 3 4 2 false).length : Int) - 1 : Int) : ℚ)))
              (((rampDumb 5 7 3 4 2 false).length : Int) - 1) := by
  have hl : (rampDumb 5 7 3 4 2 false).length = 5 := rfl
  rw [hl]
  have h1 : intensityIndex 5 15 ((16 : Int) : ℚ) = 3 := by
    unfold intensityIndex
    have e1 : f64 ((15 : ℚ) / ((16 : Int) : ℚ)) = 15 / 16 :=
      (f64_of_dyadic 15 (-4) (by norm_num) (by norm_num) (by norm_num)).trans (by norm_num)
    have e2 : f64 ((15 : ℚ) / 16 * ((((5 : Nat) : Int) - 1 : Int) : ℚ)) = 15 / 4 :=
      (f64_of_dyadic 15 (-2) (by norm_num) (by norm_num) (by norm_num)).trans (by norm_num)
    rw [e1, e2]
    exact goInt_eq_of_nonneg 3 (by decide) (by norm_num) (by norm_num)
  have h2 : min (round (((15 : ℚ) / ((16 : Int) : ℚ)) * ((((5 : Nat) : Int) - 1 : Int) : ℚ)))
      ((((5 : Nat) : Int)) - 1) = 4 := by
    rw [round_eq]
    norm_num
  refine ⟨h1, h2, ?_⟩
  rw [h1, h2]
  decide

/-! ## Spectrum magnitude -/

/-- C5, counterexample: for a bin of magnitude `1e5`, `h = 2` (a terminal one row high) and
`scale = 1` the code computes `v = 2` (every operation is exact), while
`|bin| / 1e5 / scale` is `1`. -/
theorem spectrumMag_not_unscaled :
    spectrumMag 1 100000 2 = 2 ∧ spectrumMag 1 100000 2 ≠ (100000 : ℚ) / 100000 / 1 := by
  have h : spectrumMag 1 100000 2 = 2 := by
    unfold spectrumMag
    have e1 : f64 ((100000 : ℚ) / 100000) = 1 :=
      (f64_of_dyadic 1 0 (by norm_num) (by norm_num) (by norm_num)).trans (by norm_num)
    have e2 : f64 ((1 : ℚ) * ((2 : Int) : ℚ)) = 2 :=
      (f64_of_dyadic 2 0 (by norm_num) (by norm_num) (by norm_num)).trans (by norm_num)
    have e3 : f64 ((2 : ℚ) / 1) = 2 :=
      (f64_of_dyadic 2 0 (by norm_num) (by norm_num) (by norm_num)).trans (by norm_num)
    rw [e1, e2, e3]
  refine ⟨h, ?_⟩
  rw [h]
  norm_num

/-- C5, amended: in `drawSpectrum`, for every column `c` in `[0, width)` that is drawn, with
`scale` non-zero and the intermediate results in the normal float64 range, the magnitude
`v` whose integer part is taken as the bar height is `|bin[c]| / 1e5 * h / scale` evaluated
from left to right in float64, each of the three operations rounded to nearest: it equals
`|bin[c]| / 1e5 / scale` multiplied by the height in units `h`, up to a relative rounding
error of at most `2^-51`. -/
theorem spectrumColumn_magnitude (cfg : Config) (h : Int) (absOut : Nat → ℚ) (nOut fg c : Nat)
    (r : Nat × List Event) (hr : spectrumColumn cfg h absOut nOut fg c = some r)
    (_hs : cfg.scale ≠ 0)
    (hn1 : normal64 (absOut c / 100000))
    (hn2 : normal64 (f64 (absOut c / 100000) * (h : ℚ)))
    (hn3 : normal64 (f64 (f64 (absOut c / 100000) * (h : ℚ)) / cfg.scale)) :
    r.2 = spectrumBar c h (goInt (spectrumMag cfg.scale (absOut c) h)) r.1 cfg.colorOff
      ∧ spectrumMag cfg.scale (absOut c) h
          = f64 (f64 (f64 (absOut c / 100000) * (h : ℚ)) / cfg.scale)
      ∧ |spectrumMag cfg.scale (absOut c) h - absOut c / 100000 / cfg.scale * (h : ℚ)|
          ≤ 2 ^ (-51 : Int) * |absOut c / 100000 / cfg.scale * (h : ℚ)| := by
  refine ⟨?_, rfl, ?_⟩
  · unfold spectrumColumn at hr
    split at hr
    · cases hr
    · split at hr
      · rw [Option.map_eq_some'] at hr
        obtain ⟨col, _, rfl⟩ := hr
        rfl
      · simp only [Option.some.injEq] at hr
        rw [← hr]
  · have hu : (0 : ℚ) ≤ 2 ^ (-53 : Int) := (two_zpow_pos _).le
    have d1 := abs_f64_sub_le_of_normal hn1
    have d2 := abs_f64_sub_le_of_normal hn2
    have d3 := abs_f64_sub_le_of_normal hn3
    -- the product step
    have p1 : |f64 (absOut c / 100000) * (h : ℚ) - absOut c / 100000 * (h : ℚ)|
        ≤ 2 ^ (-53 : Int) * |absOut c / 100000 * (h : ℚ)| := by
      rw [← sub_mul, abs_mul, abs_mul, ← mul_assoc]
      exact mul_le_mul_of_nonneg_right d1 (abs_nonneg _)
    have p2 := abs_sub_le_chain hu p1 d2
    -- the quotient step
    have p3 : |f64 (f64 (absOut c / 100000) * (h : ℚ)) / cfg.scale
          - absOut c / 100000 * (h : ℚ) / cfg.scale|
        ≤ (2 ^ (-53 : Int) + 2 ^ (-53 : Int) * (1 + 2 ^ (-53 : Int)))
            * |absOut c / 100000 * (h : ℚ) / cfg.scale| := by
      rw [← sub_div, abs_div, abs_div, ← mul_div_assoc]
      exact div_le_div_of_nonneg_right p2 (abs_nonneg _)
    have p4 := abs_sub_le_chain hu p3 d3
    have e : absOut c / 100000 / cfg.scale * (h : ℚ) = absOut c / 100000 * (h : ℚ) / cfg.scale := by
      ring
    rw [e]
    unfold spectrumMag
    refine le_trans p4 (mul_le_mul_of_nonneg_right ?_ (abs_nonneg _))
    norm_num

/-! ## Spectrum bars -/

theorem mem_loopDown (hi lo j : Int) : j ∈ loopDown hi lo ↔ lo < j ∧ j ≤ hi := by
  unfold loopDown
  rw [List.mem_map]
  constructor
  · rintro ⟨k, hk, rfl⟩
    have hk2 : (k : Int) < hi - lo := Int.lt_toNat.mp (List.mem_range.mp hk)
    omega
  · rintro ⟨h1, h2⟩
    have e : (((hi - j).toNat : Nat) : Int) = hi - j := Int.toNat_of_nonneg (by omega)
    refine ⟨(hi - j).toNat, List.mem_range.mpr (Int.lt_toNat.mpr ?_), ?_⟩ <;> omega

theorem fullRows_spectrumBar (i h vi : Int) (fg bg : Nat) :
    fullRows (spectrumBar i h vi fg bg) = (loopDown (h - 1) (h - vi)).map (fun j => goDiv j 2) := by
  unfold fullRows spectrumBar
  rw [List.filterMap_append, List.filterMap_map]
  have h1 : (if goMod vi 2 ≠ 0 then [Event.setCell i (goDiv (h - vi) 2) Glyph.halfBar fg bg]
      else []).filterMap (fun e =>
        match e with
        | Event.setCell _ y Glyph.fullBar _ _ => some y
        | _ => none) = [] := by
    split <;> rfl
  rw [h1, List.append_nil]
  induction loopDown (h - 1) (h - vi) with
  | nil => rfl
  | cons a l ih => simp only [List.filterMap_cons, Function.comp, List.map_cons, ih]

theorem halfRows_spectrumBar (i h vi : Int) (fg bg : Nat) :
    halfRows (spectrumBar i h vi fg bg)
      = if goMod vi 2 ≠ 0 then [goDiv (h - vi) 2] else [] := by
  unfold halfRows spectrumBar
  rw [List.filterMap_append, List.filterMap_map]
  have h1 : (loopDown (h - 1) (h - vi)).filterMap
      ((fun e =>
        match e with
        | Event.setCell _ y Glyph.halfBar _ _ => some y
        | _ => none) ∘ fun j => Event.setCell i (goDiv j 2) Glyph.fullBar fg bg) = [] := by
    induction loopDown (h - 1) (h - vi) with
    | nil => rfl
    | cons a l ih => simp only [List.filterMap_cons, Function.comp, ih]
  rw [h1, List.nil_append]
  split <;> rfl

theorem mem_fullRows_spectrumBar (i height vi : Int) (fg bg : Nat)
    (h1 : vi ≤ 2 * height) (r : Int) :
    r ∈ fullRows (spectrumBar i (height * 2) vi fg bg)
      ↔ height - vi / 2 ≤ r ∧ r ≤ height - 1 := by
  rw [fullRows_spectrumBar]
  simp only [List.mem_map, mem_loopDown]
  constructor
  · rintro ⟨j, ⟨hj1, hj2⟩, rfl⟩
    rw [goDiv_two_of_nonneg (by omega)]
    omega
  · rintro ⟨hr1, hr2⟩
    refine ⟨2 * r + 1, ⟨by omega, by omega⟩, ?_⟩
    rw [goDiv_two_of_nonneg (by omega)]
    omega

/-- C10: in `drawSpectrum`, for every terminal height `>= 1` with `h = 2 * height` (as
returned by `size`) and every bar height `vi` with `0 <= vi <= h`, a column receives only
full-bar and half-bar cells of that column; the rows with the full-bar glyph are exactly
`height - vi/2 .. height - 1`; a half-bar glyph is drawn if and only if `vi` is odd, once,
at row `height - (vi+1)/2`, which is the row directly above the full-bar rows and not one of
them; hence the bar covers exactly `vi` sub-units from the bottom of the grid. -/
theorem spectrumBar_rows (term : Nat → Int × Int) (k : Nat) (i height vi : Int) (fg bg : Nat)
    (hsz : (term k).2 = height) (_hh : 1 ≤ height) (h0 : 0 ≤ vi)
    (h1 : vi ≤ (size term k).2) :
    (∀ e ∈ spectrumBar i (size term k).2 vi fg bg,
        ∃ r, e = Event.setCell i r Glyph.fullBar fg bg
          ∨ e = Event.setCell i r Glyph.halfBar fg bg)
      ∧ (∀ r, r ∈ fullRows (spectrumBar i (size term k).2 vi fg bg)
            ↔ height - vi / 2 ≤ r ∧ r ≤ height - 1)
      ∧ halfRows (spectrumBar i (size term k).2 vi fg bg)
          = (if vi % 2 = 1 then [height - (vi + 1) / 2] else [])
      ∧ (vi % 2 = 1 → height - (vi + 1) / 2 = height - vi / 2 - 1
            ∧ 0 ≤ height - (vi + 1) / 2
            ∧ height - (vi + 1) / 2 ∉ fullRows (spectrumBar i (size term k).2 vi fg bg))
      ∧ 2 * ((fullRows (spectrumBar i (size term k).2 vi fg bg)).toFinset.card : Int)
            + ((halfRows (spectrumBar i (size term k).2 vi fg bg)).length : Int) = vi := by
  have hs : (size term k).2 = height * 2 := by simp [size, hsz]
  rw [hs] at h1 ⊢
  have h1b : vi ≤ 2 * height := by omega
  have hmem := mem_fullRows_spectrumBar i height vi fg bg h1b
  have hhalf : halfRows (spectrumBar i (height * 2) vi fg bg)
      = (if vi % 2 = 1 then [height - (vi + 1) / 2] else []) := by
    rw [halfRows_spectrumBar, goMod_two_of_nonneg h0]
    by_cases hodd : vi % 2 = 1
    · have hne : vi % 2 ≠ 0 := by omega
      rw [if_pos hne, if_pos hodd, goDiv_two_of_nonneg (by omega)]
      congr 1
      omega
    · have he : ¬ (vi % 2 ≠ 0) := by omega
      rw [if_neg he, if_neg hodd]
  refine ⟨?_, hmem, hhalf, ?_, ?_⟩
  · intro e he
    unfold spectrumBar at he
    rw [List.mem_append] at he
    rcases he with he | he
    · rw [List.mem_map] at he
      obtain ⟨j, _, rfl⟩ := he
      exact ⟨_, Or.inl rfl⟩
    · split at he
      · rw [List.mem_singleton] at he
        exact ⟨_, Or.inr he⟩
      · cases he
  · intro hodd
    refine ⟨by omega, by omega, ?_⟩
    rw [hmem]
    omega
  · have hset : (fullRows (spectrumBar i (height * 2) vi fg bg)).toFinset
        = Finset.Icc (height - vi / 2) (height - 1) := by
      ext r
      rw [List.mem_toFinset, hmem, Finset.mem_Icc]
    rw [hset, hhalf, Int.card_Icc]
    by_cases hodd : vi % 2 = 1
    · rw [if_pos hodd]
      simp only [List.length_singleton]
      omega
    · rw [if_neg hodd]
      simp only [List.length_nil]
      omega

/-! ## Waveform column value -/

theorem index_natCast {α : Type} (xs : List α) (n : Nat) (d : α) (h : n < xs.length) :
    index xs (n : Int) = some (xs.getD n d) := by
  unfold index
  rw [if_neg (by omega), Int.toNat_ofNat, List.get?_eq_getElem?, List.getD_eq_getElem?_getD,
    List.getElem?_eq_getElem h]
  rfl

theorem abs_sum_range_le (block : List Int) (base : Nat)
    (hb : ∀ x ∈ block, -32768 ≤ x ∧ x ≤ 32767) (k : Nat) (hk : base + k ≤ block.length) :
    |∑ i in Finset.range k, block.getD (base + i) 0| ≤ (k : Int) * 32768 := by
  induction k with
  | zero => simp
  | succ k ih =>
    have hlt : base + k < block.length := by omega
    have hx := hb (block.getD (base + k) 0) (by
      rw [List.getD_eq_getElem block 0 hlt]
      exact List.getElem_mem hlt)
    have h1 := ih (by omega)
    rw [Finset.sum_range_succ]
    have h2 := abs_add (∑ i in Finset.range k, block.getD (base + i) 0)
      (block.getD (base + k) 0)
    have h3 : |block.getD (base + k) 0| ≤ 32768 := abs_le.mpr ⟨hx.1, by omega⟩
    push_cast
    omega

/-- The accumulation loop adds without rounding error: fewer than `2^38` samples of 16 bits
sum to an integer below `2^53`, and every partial sum is a binary64 number. -/
theorem foldlM_range_sum (block : List Int) (base : Nat) (step pos : Int)
    (hb : pos * step = (base : Int)) (h16 : ∀ x ∈ block, -32768 ≤ x ∧ x ≤ 32767)
    (k : Nat) (hk : base + k ≤ block.length) (hk2 : k < 2 ^ 38) :
    (List.range k).foldlM
        (fun (v : ℚ) (i : Nat) =>
          (index block (pos * step + (i : Int))).map (fun (x : Int) => f64 (v + (x : ℚ))))
        (0 : ℚ)
      = some (((∑ i in Finset.range k, block.getD (base + i) 0 : Int)) : ℚ) := by
  induction k with
  | zero => simp
  | succ k ih =>
    have hidx : index block (pos * step + (k : Int)) = some (block.getD (base + k) 0) := by
      rw [hb, ← Int.ofNat_add]
      exact index_natCast block (base + k) 0 (by omega)
    have hbound := abs_sum_range_le block base h16 (k + 1) hk
    have hk3 : ((k + 1 : Nat) : Int) < 274877906944 := by
      have : (2 : Nat) ^ 38 = 274877906944 := by norm_num
      omega
    have hlt : |∑ i in Finset.range (k + 1), block.getD (base + i) 0| < 2 ^ 53 := by
      have : (2 : Int) ^ 53 = 9007199254740992 := by norm_num
      omega
    have hf := f64_intCast _ hlt
    rw [Finset.sum_range_succ] at hf
    push_cast at hf
    rw [List.range_succ, List.foldlM_append, ih (by omega) (by omega)]
    simp only [Option.some_bind, List.foldlM_cons, List.foldlM_nil, hidx, Option.map_some',
      Option.bind_eq_bind, Option.pure_def]
    rw [Finset.sum_range_succ]
    push_cast
    rw [hf]

theorem waveSum_value (step c : Nat) (block : List Int) (hs2 : step < 2 ^ 38)
    (h16 : ∀ x ∈ block, -32768 ≤ x ∧ x ≤ 32767) (hk : c * step + step ≤ block.length) :
    waveSum (step : Int) block (c : Int)
      = some (((∑ i in Finset.range step, block.getD (c * step + i) 0 : Int)) : ℚ) := by
  have hb : (c : Int) * (step : Int) = ((c * step : Nat) : Int) := by push_cast; rfl
  unfold waveSum
  rw [Int.toNat_ofNat, foldlM_range_sum block (c * step) step c hb h16 step hk hs2]

theorem waveMean_value (step c : Nat) (block : List Int) (hs2 : step < 2 ^ 38)
    (h16 : ∀ x ∈ block, -32768 ≤ x ∧ x ≤ 32767) (hk : c * step + step ≤ block.length) :
    waveMean (step : Int) block (c : Int) = some (f64 (columnMean step block c)) := by
  unfold waveMean columnMean
  rw [waveSum_value step c block hs2 h16 hk]
  simp

/-- C2, counterexample: with `step = 3`, one column and the block `1, 2, 4` the exact mean
is `7/3`, which is not a float64 number; the value the code maps to a position is the
float64 quotient `7.0 / 3.0 = 5254199565265579 * 2^-51`. -/
theorem waveMean_not_exact :
    waveMean 3 [1, 2, 4] 0 = some (5254199565265579 / 2 ^ 51)
      ∧ columnMean 3 [1, 2, 4] 0 = 7 / 3
      ∧ waveMean 3 [1, 2, 4] 0 ≠ some (columnMean 3 [1, 2, 4] 0) := by
  have hc : columnMean 3 [1, 2, 4] 0 = 7 / 3 := by
    simp [columnMean, Finset.sum_range_succ]
  have hf : f64 (7 / 3) = 5254199565265579 / 2 ^ 51 := by
    rw [f64_eval 1 5254199565265579 (by decide) (by norm_num [abs_of_pos])
      (by norm_num [abs_of_pos]) (by norm_num [roundEven])]
    norm_num
  have hm : waveMean 3 [1, 2, 4] 0 = some (5254199565265579 / 2 ^ 51) := by
    have := waveMean_value 3 0 [1, 2, 4] (by norm_num) (by decide) (by decide)
    rw [hc, hf] at this
    simpa using this
  refine ⟨hm, hc, ?_⟩
  rw [hm, hc]
  norm_num

/-- C2, amended: in `drawWave`, for every `step` with `1 <= step < 2^38`, every width
`w >= 1`, every block of `w * step` signed 16-bit samples and every column `c < w`, the
value mapped to a vertical position for column `c`, the accumulated sum divided by `step`,
is the float64 number nearest to the exact arithmetic mean of the `step` samples at block
indices `c*step .. (c+1)*step - 1`: the sum is accumulated without rounding error and the
division rounds once.  So the value is within a relative error `2^-53` of the exact mean,
and it is the exact mean when `step` is a power of two. -/
theorem waveMean_eq_rounded_mean (cfg : Config) (h : Int) (step w c : Nat) (block : List Int)
    (hcfg : cfg.step = (step : Int)) (hs : 1 ≤ step) (hs2 : step < 2 ^ 38) (_hw : 1 ≤ w)
    (hlen : block.length = w * step) (h16 : ∀ x ∈ block, -32768 ≤ x ∧ x ≤ 32767)
    (hc : c < w) :
    waveMean (step : Int) block (c : Int) = some (f64 (columnMean step block c))
      ∧ waveColumn cfg h block (c : Int)
          = some [waveCell (c : Int) (wavePos h (f64 (columnMean step block c)))
              cfg.colorOn cfg.colorOff]
      ∧ |f64 (columnMean step block c) - columnMean step block c|
          ≤ 2 ^ (-53 : Int) * |columnMean step block c|
      ∧ ((∃ k : Nat, step = 2 ^ k) →
          waveMean (step : Int) block (c : Int) = some (columnMean step block c)) := by
  have hk : c * step + step ≤ block.length := by
    rw [hlen]
    calc c * step + step = (c + 1) * step := by ring
      _ ≤ w * step := Nat.mul_le_mul_right step hc
  have hmean := waveMean_value step c block hs2 h16 hk
  have hbound := abs_sum_range_le block (c * step) h16 step hk
  have hstep : (step : Int) < 274877906944 := by
    have : (2 : Nat) ^ 38 = 274877906944 := by norm_num
    omega
  have hS : |∑ i in Finset.range step, block.getD (c * step + i) 0| < 2 ^ 53 := by
    have : (2 : Int) ^ 53 = 9007199254740992 := by norm_num
    have h1 : (1 : Int) ≤ step := by exact_mod_cast hs
    nlinarith
  refine ⟨hmean, ?_, ?_, ?_⟩
  · unfold waveColumn
    rw [hcfg, hmean]
    rfl
  · by_cases h0 : (∑ i in Finset.range step, block.getD (c * step + i) 0) = 0
    · have : columnMean step block c = 0 := by
        unfold columnMean
        rw [h0]
        simp
      rw [this, f64_zero]
      simp
    · apply abs_f64_sub_le
      have h1 : (1 : ℚ) ≤ |((∑ i in Finset.range step, block.getD (c * step + i) 0 : Int) : ℚ)| := by
        rw [← Int.cast_abs]
        have : (1 : Int) ≤ |∑ i in Finset.range step, block.getD (c * step + i) 0| :=
          Int.one_le_abs h0
        exact_mod_cast this
      have h2 : (0 : ℚ) < (step : ℚ) := by exact_mod_cast hs
      have h3 : (step : ℚ) ≤ 274877906944 := by
        have : (step : Int) ≤ 274877906944 := hstep.le
        exact_mod_cast this
      unfold columnMean
      rw [abs_div, abs_of_pos h2, le_div_iff₀ h2]
      have h4 : (2 : ℚ) ^ (-1022 : Int) * (step : ℚ) ≤ 1 := by
        have h5 : (2 : ℚ) ^ (-1022 : Int) ≤ 1 / 274877906944 := by norm_num
        calc (2 : ℚ) ^ (-1022 : Int) * (step : ℚ)
            ≤ 1 / 274877906944 * 274877906944 :=
              mul_le_mul h5 h3 h2.le (by norm_num)
          _ = 1 := by norm_num
      linarith
  · rintro ⟨k, hk2⟩
    rw [hmean]
    congr 1
    have hk3 : k < 38 := by
      by_contra hcon
      have : 2 ^ 38 ≤ 2 ^ k := Nat.pow_le_pow_right (by norm_num) (not_lt.mp hcon)
      omega
    apply f64_of_dyadic (∑ i in Finset.range step, block.getD (c * step + i) 0) (-(k : Int))
    · unfold columnMean
      rw [hk2, zpow_neg, zpow_natCast]
      push_cast
      rw [div_eq_mul_inv]
    · exact hS
    · omega

/-! ## Reading blocks -/

theorem takeSamples_length (n : Nat) (file : List Item) (d : List Int)
    (h : (takeSamples n file).1 = some d) : d.length = n := by
  induction n generalizing file d with
  | zero =>
    simp only [takeSamples, Option.some.injEq] at h
    rw [← h]
    rfl
  | succ n ih =>
    cases file with
    | nil => simp [takeSamples] at h
    | cons a rest =>
      cases a with
      | ioError => simp [takeSamples] at h
      | sample v =>
        simp only [takeSamples, Option.map_eq_some'] at h
        obtain ⟨d1, hd1, rfl⟩ := h
        simp [ih rest d1 hd1]

theorem readBlock_length (buf : List Int) (file : List Item) :
    (readBlock buf file).2.1.length = buf.length := by
  unfold readBlock
  split
  · rfl
  · split
    · rfl
    · split
      · next d rest heq =>
        exact takeSamples_length _ _ _ (congrArg Prod.fst heq)
      · rfl

/-! ## Invariant of the spectrum loop -/

theorem run_forall {σ : Type} (body : σ → Step σ) (I : σ → Prop) (P : Event → Prop)
    (hnext : ∀ s s1 ev, I s → body s = Step.next s1 ev → I s1 ∧ ∀ e ∈ ev, P e)
    (hstop : ∀ s ev, I s → body s = Step.stop ev → ∀ e ∈ ev, P e)
    (hpanic : ∀ s ev, I s → body s = Step.panic ev → ∀ e ∈ ev, P e) :
    ∀ (fuel : Nat) (s : σ), I s → ∀ e ∈ (run body fuel s).1, P e := by
  intro fuel
  induction fuel with
  | zero =>
    intro s _ e he
    simp [run] at he
  | succ fuel ih =>
    intro s hs e he
    unfold run at he
    cases hb : body s with
    | next s1 ev =>
      rw [hb] at he
      simp only [List.mem_append] at he
      rcases he with he | he
      · exact (hnext s s1 ev hs hb).2 e he
      · exact ih s1 (hnext s s1 ev hs hb).1 e he
    | stop ev =>
      rw [hb] at he
      exact hstop s ev hs hb e he
    | panic ev =>
      rw [hb] at he
      exact hpanic s ev hs hb e he

theorem allocate_spec (s s1 : SpecState) (h : allocate s = some s1) :
    SpecInv s1 ∧ s1.w = s.w ∧ s1.resn = s.w := by
  unfold allocate at h
  split at h
  · cases h
  · next hneg =>
    simp only [Option.some.injEq] at h
    subst h
    have h0 : (0 : Int) ≤ (s.w - 1) * 2 := by omega
    have hw : (0 : Int) ≤ s.w := by omega
    refine ⟨⟨?_, rfl, ?_, ?_, ?_, ?_, rfl⟩, rfl, rfl⟩
    · show 1 ≤ s.w
      omega
    · show ((List.replicate ((s.w - 1) * 2).toNat (0 : ℚ)).length : Int) = (s.w - 1) * 2
      rw [List.length_replicate, Int.toNat_of_nonneg h0]
    · show ((List.replicate ((s.w - 1) * 2).toNat (0 : Int)).length : Int) = (s.w - 1) * 2
      rw [List.length_replicate, Int.toNat_of_nonneg h0]
    · show ((s.w.toNat : Nat) : Int) = s.w
      exact Int.toNat_of_nonneg hw
    · show ((s.w - 1) * 2).toNat = (List.replicate ((s.w - 1) * 2).toNat (0 : ℚ)).length
      rw [List.length_replicate]

theorem resize_spec (s s1 : SpecState) (hs : SpecInv s) (h : resize s = some s1) :
    SpecInv s1 ∧ s1.w = s.w ∧ (s1.resn = s1.w ∨ s1.w = 1) := by
  unfold resize at h
  split at h
  · obtain ⟨h1, h2, h3⟩ := allocate_spec s s1 h
    exact ⟨h1, h2, Or.inl (by rw [h3, h2])⟩
  · next hc =>
    simp only [Option.some.injEq] at h
    subst h
    refine ⟨hs, rfl, ?_⟩
    by_cases hw : s.w = 1
    · exact Or.inr hw
    · left
      by_contra hne
      exact hc ⟨hne, hw⟩

theorem copyIn_length (samples : Int) (inBuf : List ℚ) (inRaw : List Int) (inp : List ℚ)
    (h : copyIn samples inBuf inRaw = some inp) : inp.length = inBuf.length := by
  unfold copyIn at h
  split at h
  · next hc =>
    simp only [Option.some.injEq] at h
    subst h
    simp only [List.length_append, List.length_map, List.length_take, List.length_drop]
    omega
  · cases h

theorem spectrumColumn_cells (cfg : Config) (h : Int) (absOut : Nat → ℚ) (nOut fg i : Nat)
    (r : Nat × List Event) (hr : spectrumColumn cfg h absOut nOut fg i = some r) :
    ∀ e ∈ r.2, isCell e := by
  have hbar : ∀ (vi : Int) (c bg : Nat), ∀ e ∈ spectrumBar i h vi c bg, isCell e := by
    intro vi c bg e he
    unfold spectrumBar at he
    rw [List.mem_append] at he
    rcases he with he | he
    · rw [List.mem_map] at he
      obtain ⟨j, _, rfl⟩ := he
      trivial
    · split at he
      · rw [List.mem_singleton] at he
        subst he
        trivial
      · cases he
  unfold spectrumColumn at hr
  split at hr
  · cases hr
  · split at hr
    · rw [Option.map_eq_some'] at hr
      obtain ⟨c, _, rfl⟩ := hr
      exact hbar _ _ _
    · simp only [Option.some.injEq] at hr
      subst hr
      exact hbar _ _ _

theorem spectrumColumns_cells (cfg : Config) (h : Int) (absOut : Nat → ℚ) (nOut : Nat)
    (cols : List Nat) : ∀ (fg : Nat), ∀ e ∈ (spectrumColumns cfg h absOut nOut fg cols).1,
      isCell e := by
  induction cols with
  | nil =>
    intro fg e he
    simp [spectrumColumns] at he
  | cons i rest ih =>
    intro fg e he
    unfold spectrumColumns at he
    cases hc : spectrumColumn cfg h absOut nOut fg i with
    | none =>
      rw [hc] at he
      simp at he
    | some r =>
      obtain ⟨fg1, cells⟩ := r
      rw [hc] at he
      simp only [List.mem_append] at he
      rcases he with he | he
      · exact spectrumColumn_cells cfg h absOut nOut fg i _ hc e he
      · exact ih fg1 e he

theorem executeOk_of_isCell (e : Event) (h : isCell e) : executeOk e := by
  cases e <;> trivial

theorem spectrumFrame_spec (cfg : Config) (term : Nat → Int × Int) (mag : List ℚ → Nat → ℚ)
    (s : SpecState) (hs : SpecInv s) :
    (∀ s2 ev, spectrumFrame cfg term mag s = Step.next s2 ev →
        SpecInv s2 ∧ ∀ e ∈ ev, executeOk e)
      ∧ (∀ ev, spectrumFrame cfg term mag s = Step.stop ev → ∀ e ∈ ev, executeOk e)
      ∧ (∀ ev, spectrumFrame cfg term mag s = Step.panic ev → ∀ e ∈ ev, executeOk e) := by
  unfold spectrumFrame
  cases hr : resize s with
  | none =>
    refine ⟨?_, ?_, ?_⟩
    · intro s2 ev h
      cases h
    · intro ev h
      cases h
    · intro ev h e he
      simp only [Step.panic.injEq] at h
      subst h
      cases he
  | some s1 =>
    obtain ⟨hinv, _, hw⟩ := resize_spec s s1 hs hr
    obtain ⟨h1, h2, h3, h4, h5, h6, h7⟩ := hinv
    dsimp only
    rcases hrb : readBlock s1.inRaw s1.file with ⟨res, buf, file1⟩
    have hbuf : buf.length = s1.inRaw.length := by
      have := readBlock_length s1.inRaw s1.file
      rw [hrb] at this
      exact this
    have hread : ∀ (n : Nat) (r : ReadResult), executeOk (Event.read n r) := fun _ _ => trivial
    have hexec : ∀ inp : List ℚ, copyIn s1.samples s1.inBuf buf = some inp →
        executeOk (Event.execute s1.w inp.length buf.length s1.nOut s1.planIn s1.planOut) := by
      intro inp hcp hw2
      have hl := copyIn_length _ _ _ _ hcp
      have hres : s1.resn = s1.w := by
        rcases hw with hw | hw
        · exact hw
        · omega
      refine ⟨by omega, by omega, by omega, by omega, h7⟩
    have hcols : ∀ (inp : List ℚ),
        ∀ e ∈ (spectrumColumns cfg s1.h (mag inp) s1.nOut s1.fg (List.range s1.w.toNat)).1,
          executeOk e :=
      fun inp e he => executeOk_of_isCell e (spectrumColumns_cells cfg _ _ _ _ _ e he)
    cases res with
    | eof =>
      refine ⟨?_, ?_, ?_⟩
      · intro s2 ev h
        cases h
      · intro ev h e he
        simp only [Step.stop.injEq] at h
        subst h
        simp only [List.mem_cons, List.mem_singleton, List.not_mem_nil, or_false] at he
        rcases he with rfl | rfl <;> trivial
      · intro ev h
        cases h
    | filled =>
      simp only
      cases hcp : copyIn s1.samples s1.inBuf buf with
      | none =>
        refine ⟨?_, ?_, ?_⟩
        · intro s2 ev h
          cases h
        · intro ev h
          cases h
        · intro ev h e he
          simp only [Step.panic.injEq] at h
          subst h
          simp only [List.mem_singleton] at he
          subst he
          trivial
      | some inp =>
        have hl := copyIn_length _ _ _ _ hcp
        simp only
        split
        · refine ⟨?_, ?_, ?_⟩
          · intro s2 ev h
            simp only [Step.next.injEq] at h
            obtain ⟨rfl, rfl⟩ := h
            refine ⟨⟨h1, h2, by show (inp.length : Int) = s1.samples; omega,
              by show (buf.length : Int) = s1.samples; omega, h5,
              by show s1.planIn = inp.length; omega, h7⟩, ?_⟩
            intro e he
            simp only [List.mem_append, List.mem_cons, List.mem_singleton, List.not_mem_nil,
              or_false] at he
            rcases he with ((rfl | rfl) | he) | (rfl | rfl)
            · trivial
            · exact hexec inp hcp
            · exact hcols inp e he
            · trivial
            · trivial
          · intro ev h
            cases h
          · intro ev h
            cases h
        · refine ⟨?_, ?_, ?_⟩
          · intro s2 ev h
            cases h
          · intro ev h
            cases h
          · intro ev h e he
            simp only [Step.panic.injEq] at h
            subst h
            simp only [List.mem_append, List.mem_cons, List.mem_singleton, List.not_mem_nil,
              or_false] at he
            rcases he with (rfl | rfl) | he
            · trivial
            · exact hexec inp hcp
            · exact hcols inp e he
    | failed =>
      simp only
      cases hcp : copyIn s1.samples s1.inBuf buf with
      | none =>
        refine ⟨?_, ?_, ?_⟩
        · intro s2 ev h
          cases h
        · intro ev h
          cases h
        · intro ev h e he
          simp only [Step.panic.injEq] at h
          subst h
          simp only [List.mem_singleton] at he
          subst he
          trivial
      | some inp =>
        have hl := copyIn_length _ _ _ _ hcp
        simp only
        split
        · refine ⟨?_, ?_, ?_⟩
          · intro s2 ev h
            simp only [Step.next.injEq] at h
            obtain ⟨rfl, rfl⟩ := h
            refine ⟨⟨h1, h2, by show (inp.length : Int) = s1.samples; omega,
              by show (buf.length : Int) = s1.samples; omega, h5,
              by show s1.planIn = inp.length; omega, h7⟩, ?_⟩
            intro e he
            simp only [List.mem_append, List.mem_cons, List.mem_singleton, List.not_mem_nil,
              or_false] at he
            rcases he with ((rfl | rfl) | he) | (rfl | rfl)
            · trivial
            · exact hexec inp hcp
            · exact hcols inp e he
            · trivial
            · trivial
          · intro ev h
            cases h
          · intro ev h
            cases h
        · refine ⟨?_, ?_, ?_⟩
          · intro s2 ev h
            cases h
          · intro ev h
            cases h
          · intro ev h e he
            simp only [Step.panic.injEq] at h
            subst h
            simp only [List.mem_append, List.mem_cons, List.mem_singleton, List.not_mem_nil,
              or_false] at he
            rcases he with (rfl | rfl) | he
            · trivial
            · exact hexec inp hcp
            · exact hcols inp e he

theorem spectrumInit_spec (cfg : Config) (term : Nat → Int × Int) (file : List Item)
    (s : SpecState) (h : spectrumInit cfg term file = some s) : SpecInv s :=
  (allocate_spec _ s h).1

theorem drawSpectrum_executeOk (cfg : Config) (term : Nat → Int × Int)
    (mag : List ℚ → Nat → ℚ) (file : List Item) (fuel : Nat) :
    ∀ e ∈ (drawSpectrum cfg term mag file fuel).1, executeOk e := by
  unfold drawSpectrum
  cases hi : spectrumInit cfg term file with
  | none =>
    intro e he
    cases he
  | some s =>
    exact run_forall (spectrumFrame cfg term mag) SpecInv executeOk
      (fun s s1 ev hs hb => (spectrumFrame_spec cfg term mag s hs).1 s1 ev hb)
      (fun s ev hs hb => (spectrumFrame_spec cfg term mag s hs).2.1 ev hb)
      (fun s ev hs hb => (spectrumFrame_spec cfg term mag s hs).2.2 ev hb)
      fuel s (spectrumInit_spec cfg term file s hi)

/-- C3: in `drawSpectrum`, at every execution of the transform plan (in a run of any length,
for any sequence of terminal sizes and any input), whenever the width `w` most recently
read is at least 2, the output buffer has exactly `w` bins, the real input buffer and the
raw sample block have exactly `2 * (w - 1)` entries each, and the plan executed was created
for buffers of these lengths; so every column `c < w` drawn in the frame indexes an
existing output bin. -/
theorem drawSpectrum_buffer_sizes (cfg : Config) (term : Nat → Int × Int)
    (mag : List ℚ → Nat → ℚ) (file : List Item) (fuel : Nat) (w : Int)
    (nIn nRaw nOut planIn planOut : Nat)
    (he : Event.execute w nIn nRaw nOut planIn planOut
            ∈ (drawSpectrum cfg term mag file fuel).1)
    (hw : 2 ≤ w) :
    (nOut : Int) = w ∧ (nIn : Int) = 2 * (w - 1) ∧ (nRaw : Int) = 2 * (w - 1)
      ∧ planIn = nIn ∧ planOut = nOut ∧ ∀ c : Nat, (c : Int) < w → c < nOut := by
  obtain ⟨h1, h2, h3, h4, h5⟩ := drawSpectrum_executeOk cfg term mag file fuel _ he hw
  refine ⟨h1, h2, h3, h4, h5, ?_⟩
  intro c hc
  omega

/-! ## Evaluation at concrete inputs -/

theorem f64_lit :
    f64 32767 = 32767 ∧ f64 (-32767) = -32767 ∧ f64 1 = 1 ∧ f64 2 = 2
      ∧ f64 (1 / 2) = 1 / 2 := by
  refine ⟨?_, ?_, ?_, ?_, ?_⟩
  · exact f64_of_dyadic 32767 0 (by norm_num) (by norm_num) (by norm_num)
  · exact f64_of_dyadic (-32767) 0 (by norm_num) (by norm_num) (by norm_num)
  · exact f64_of_dyadic 1 0 (by norm_num) (by norm_num) (by norm_num)
  · exact f64_of_dyadic 2 0 (by norm_num) (by norm_num) (by norm_num)
  · exact f64_of_dyadic 1 (-1) (by norm_num) (by norm_num) (by norm_num)

/-- The position when every operation of the expression is exact: the scale
`32767 / half_h` is a float64 number and the quotient by it is a small integer. -/
theorem wavePos_of_exact (h : Int) (m : ℚ) (half q : Int) (hh : goDiv h 2 = half)
    (h1 : f64 (32767 / (half : ℚ)) = 32767 / (half : ℚ))
    (h2 : m / (32767 / (half : ℚ)) = (q : ℚ)) (hq : |q| < 2 ^ 53)
    (hr : |q + half| < 2 ^ 53) : wavePos h m = q + half := by
  unfold wavePos
  rw [hh, h1, h2, f64_intCast q hq, ← Int.cast_add, f64_intCast (q + half) hr,
    goInt_intCast]

theorem wavePos_eval :
    wavePos 4 0 = 2 ∧ wavePos 4 (-32767) = 0 ∧ wavePos 32 0 = 16
      ∧ wavePos 32 32767 = 32 ∧ wavePos 2 32767 = 2 := by
  have s2 : f64 (32767 / ((2 : Int) : ℚ)) = 32767 / ((2 : Int) : ℚ) :=
    f64_of_dyadic 32767 (-1) (by norm_num) (by norm_num) (by norm_num)
  have s16 : f64 (32767 / ((16 : Int) : ℚ)) = 32767 / ((16 : Int) : ℚ) :=
    f64_of_dyadic 32767 (-4) (by norm_num) (by norm_num) (by norm_num)
  have s1 : f64 (32767 / ((1 : Int) : ℚ)) = 32767 / ((1 : Int) : ℚ) :=
    f64_of_dyadic 32767 0 (by norm_num) (by norm_num) (by norm_num)
  refine ⟨?_, ?_, ?_, ?_, ?_⟩
  · exact wavePos_of_exact 4 0 2 0 (by decide) s2 (by norm_num) (by norm_num) (by norm_num)
  · exact wavePos_of_exact 4 (-32767) 2 (-2) (by decide) s2 (by norm_num) (by norm_num)
      (by norm_num)
  · exact wavePos_of_exact 32 0 16 0 (by decide) s16 (by norm_num) (by norm_num)
      (by norm_num)
  · exact wavePos_of_exact 32 32767 16 16 (by decide) s16 (by norm_num) (by norm_num)
      (by norm_num)
  · exact wavePos_of_exact 2 32767 1 1 (by decide) s1 (by norm_num) (by norm_num)
      (by norm_num)

theorem waveMean_eval :
    waveMean 2 [0, 0] 0 = some 0
      ∧ waveMean 2 [32767, 32767] 0 = some 32767
      ∧ waveMean 2 [0, 0, 0, 0] 0 = some 0
      ∧ waveMean 2 [0, 0, 0, 0] 1 = some 0
      ∧ waveMean 2 [-32767, -32767, 0, 0] 0 = some (-32767)
      ∧ waveMean 2 [-32767, -32767, 0, 0] 1 = some 0
      ∧ waveMean 2 [-32767, -32767, -32767, -32767] 0 = some (-32767)
      ∧ waveMean 2 [-32767, -32767, -32767, -32767] 1 = some (-32767) := by
  have a1 := waveMean_value 2 0 [0, 0] (by norm_num) (by decide) (by decide)
  have a2 := waveMean_value 2 0 [32767, 32767] (by norm_num) (by decide) (by decide)
  have a3 := waveMean_value 2 0 [0, 0, 0, 0] (by norm_num) (by decide) (by decide)
  have a4 := waveMean_value 2 1 [0, 0, 0, 0] (by norm_num) (by decide) (by decide)
  have a5 := waveMean_value 2 0 [-32767, -32767, 0, 0] (by norm_num) (by decide) (by decide)
  have a6 := waveMean_value 2 1 [-32767, -32767, 0, 0] (by norm_num) (by decide) (by decide)
  have a7 := waveMean_value 2 0 [-32767, -32767, -32767, -32767] (by norm_num) (by decide)
    (by decide)
  have a8 := waveMean_value 2 1 [-32767, -32767, -32767, -32767] (by norm_num) (by decide)
    (by decide)
  norm_num [columnMean, Finset.sum_range_succ, f64_lit, f64_zero] at a1 a2 a3 a4 a5 a6 a7 a8
  exact ⟨a1, a2, a3, a4, a5, a6, a7, a8⟩

theorem spectrumMag_eval :
    spectrumMag 2 50000 4 = 1 ∧ spectrumMag 2 0 4 = 0 := by
  constructor
  · unfold spectrumMag
    have e1 : f64 ((50000 : ℚ) / 100000) = 1 / 2 := by
      rw [show (50000 : ℚ) / 100000 = 1 / 2 from by norm_num]
      exact f64_lit.2.2.2.2
    have e2 : f64 ((1 : ℚ) / 2 * ((4 : Int) : ℚ)) = 2 := by
      rw [show (1 : ℚ) / 2 * ((4 : Int) : ℚ) = 2 from by norm_num]
      exact f64_lit.2.2.2.1
    have e3 : f64 ((2 : ℚ) / 2) = 1 := by
      rw [show (2 : ℚ) / 2 = 1 from by norm_num]
      exact f64_lit.2.2.1
    rw [e1, e2, e3]
  · unfold spectrumMag
    simp [f64_zero]

theorem dft2_eval : dft2 [25000, 25000] 0 = 50000 ∧ dft2 [25000, 25000] 1 = 0 := by
  constructor
  · simp only [dft2, if_true, List.getD_cons_zero, List.getD_cons_succ]
    rw [abs_of_nonneg (by norm_num)]
    norm_num
  · simp [dft2]

/-- C1, failing input: a terminal of one column and 16 rows (`height_units = 32`), the
default `step = 2` and a block holding the largest 16-bit sample twice.  The value mapped
is `32767`, the computed position is `32 = height_units`, and the cell is written at row
`16`, outside the grid `[0, 16)`; likewise with one row the position is
`2 = height_units`. -/
theorem drawWave_full_scale_leaves_grid :
    (waveMean cfgDefault.step [32767, 32767] 0).map (wavePos (size (termFixed 1 16) 0).2)
        = some (size (termFixed 1 16) 0).2
      ∧ (waveMean cfgDefault.step [32767, 32767] 0).map (wavePos (size (termFixed 1 1) 0).2)
        = some (size (termFixed 1 1) 0).2
      ∧ drawWave cfgDefault (termFixed 1 16) [Item.sample 32767, Item.sample 32767] 3
        = ([Event.setCell 0 8 Glyph.upperHalf 1 0,
            Event.read 2 ReadResult.filled, Event.flush, Event.clear 0 0,
            Event.setCell 0 16 Glyph.upperHalf 1 0,
            Event.read 2 ReadResult.eof, Event.closeEnd], Exit.closed) := by
  refine ⟨?_, ?_, ?_⟩
  · simp [cfgDefault, size, termFixed, waveMean_eval, wavePos_eval]
  · simp [cfgDefault, size, termFixed, waveMean_eval, wavePos_eval]
  · simp [drawWave, waveInit, run, waveIter, waveBoundary, waveBlock, waveColumn,
      size, makeSlice, readBlock, takeSamples, cfgDefault, termFixed, waveCell,
      waveMean_eval, wavePos_eval]
    decide

/-- C9, failing input: a terminal of two columns and two rows, `step = 2`, and a stream of
exactly one complete block followed by end-of-stream.  The only `Flush` happens before any
cell of the block is written: it shows the frame drawn from the zero-initialised block,
which was never read from the stream, and the cells of the block read are written but never
flushed, because the loop returns at the next read. -/
theorem drawWave_last_block_not_flushed :
    drawWave cfgDefault (termFixed 2 2)
        [Item.sample (-32767), Item.sample (-32767), Item.sample 0, Item.sample 0] 5
      = ([Event.setCell 0 1 Glyph.upperHalf 1 0, Event.setCell 1 1 Glyph.upperHalf 1 0,
          Event.read 4 ReadResult.filled, Event.flush, Event.clear 0 0,
          Event.setCell 0 0 Glyph.upperHalf 1 0, Event.setCell 1 1 Glyph.upperHalf 1 0,
          Event.read 4 ReadResult.eof, Event.closeEnd], Exit.closed) := by
  simp [drawWave, waveInit, run, waveIter, waveBoundary, waveBlock, waveColumn,
    size, makeSlice, readBlock, takeSamples, cfgDefault, termFixed, waveCell,
    waveMean_eval, wavePos_eval]
  decide

/-- C4, counterexample: in both loops a short read (a failure other than end-of-stream) is
followed by cell writes and by a further block read.  `drawWave` with two columns, two rows,
`step = 2` reads a stream of six samples: the second read is short, yet the frame is
flushed, the cells of the unchanged block are written again and a third read is made.
`drawSpectrum` with two columns (blocks of two samples) reads a stream of three samples with
the same outcome. -/
theorem short_read_does_not_stop :
    drawWave cfgDefault (termFixed 2 2)
        [Item.sample (-32767), Item.sample (-32767), Item.sample (-32767),
          Item.sample (-32767), Item.sample (-32767), Item.sample (-32767)] 7
      = ([Event.setCell 0 1 Glyph.upperHalf 1 0, Event.setCell 1 1 Glyph.upperHalf 1 0,
          Event.read 4 ReadResult.filled, Event.flush, Event.clear 0 0,
          Event.setCell 0 0 Glyph.upperHalf 1 0, Event.setCell 1 0 Glyph.upperHalf 1 0,
          Event.read 4 ReadResult.failed, Event.flush, Event.clear 0 0,
          Event.setCell 0 0 Glyph.upperHalf 1 0, Event.setCell 1 0 Glyph.upperHalf 1 0,
          Event.read 4 ReadResult.eof, Event.closeEnd], Exit.closed)
      ∧ drawSpectrum cfgDefault (termFixed 2 2) dft2
          [Item.sample 25000, Item.sample 25000, Item.sample 25000] 3
        = ([Event.read 2 ReadResult.filled, Event.execute 2 2 2 2 2 2,
            Event.setCell 0 1 Glyph.halfBar 1 0, Event.flush, Event.clear 0 0,
            Event.read 2 ReadResult.failed, Event.execute 2 2 2 2 2 2,
            Event.setCell 0 1 Glyph.halfBar 1 0, Event.flush, Event.clear 0 0,
            Event.read 2 ReadResult.eof, Event.closeEnd], Exit.closed) := by
  constructor
  · simp [drawWave, waveInit, run, waveIter, waveBoundary, waveBlock, waveColumn,
      size, makeSlice, readBlock, takeSamples, cfgDefault, termFixed, waveCell,
      waveMean_eval, wavePos_eval]
    decide
  · simp [drawSpectrum, spectrumInit, allocate, run, spectrumFrame, resize, size, termFixed,
      readBlock, takeSamples, copyIn, spectrumColumns, spectrumColumn,
      spectrumBar, loopDown, cfgDefault, goInt_zero, goInt_one, List.range_succ,
      List.replicate, dft2_eval, spectrumMag_eval]
    decide

/-! ## Read failures -/

theorem readBlock_failed (buf : List Int) (file : List Item)
    (h : (readBlock buf file).1 = ReadResult.failed) : (readBlock buf file).2.1 = buf := by
  unfold readBlock at h ⊢
  split
  · rfl
  · split
    · rfl
    · split
      · next d rest heq =>
        rw [if_neg (by assumption)] at h
        simp only [heq] at h
        cases h
      · rfl

theorem waveIter_stop (cfg : Config) (term : Nat → Int × Int) (s : WaveState)
    (ev : List Event) (h : waveIter cfg term s = Step.stop ev) :
    ∃ n, ev = [Event.read n ReadResult.eof, Event.closeEnd] := by
  unfold waveIter at h
  split at h
  · next s1 ev1 heq =>
    split at h <;> cases h
  · next ev1 heq =>
    simp only [Step.stop.injEq] at h
    subst h
    split at heq
    · unfold waveBoundary at heq
      split at heq
      · cases heq
      · split at heq
        · simp only [Step.stop.injEq] at heq
          exact ⟨_, heq.symm⟩
        · cases heq
    · cases heq
  · cases h

theorem spectrumFrame_stop (cfg : Config) (term : Nat → Int × Int)
    (mag : List ℚ → Nat → ℚ) (s : SpecState) (ev : List Event)
    (h : spectrumFrame cfg term mag s = Step.stop ev) :
    ∃ n, ev = [Event.read n ReadResult.eof, Event.closeEnd] := by
  unfold spectrumFrame at h
  split at h
  · cases h
  · split at h
    · simp only [Step.stop.injEq] at h
      exact ⟨_, h.symm⟩
    · split at h
      · cases h
      · split at h <;> cases h

/-- C4, amended: in both frame loops a block read that reports a failure other than
end-of-stream (a short read included) does not end the loop.  The error is ignored, the
block keeps the contents it had before the read, and the iteration goes on as after a
successful read: `drawWave` flushes, clears and writes the cell of column 0 from that block;
`drawSpectrum` executes the plan on it, draws the frame, flushes and clears; both continue
with the next iteration.  An iteration makes the loop return only after a read that reported
end-of-stream. -/
theorem read_failure_is_ignored (cfg : Config) (term : Nat → Int × Int)
    (mag : List ℚ → Nat → ℚ) :
    (∀ (s : WaveState) (buf : List Int) (cells : List Event),
        s.w ≤ s.pos → waveBlock cfg term s = some buf →
        (readBlock buf s.file).1 = ReadResult.failed →
        waveColumn cfg (size term s.calls).2 buf 0 = some cells →
        waveIter cfg term s =
          Step.next
            { pos := 1, w := (size term s.calls).1, h := (size term s.calls).2, inRaw := buf,
              file := (readBlock buf s.file).2.2, calls := s.calls + 1 }
            ([Event.read buf.length ReadResult.failed, Event.flush,
              Event.clear cfg.colorOff cfg.colorOff] ++ cells))
      ∧ (∀ (s s1 : SpecState) (inp : List ℚ),
          resize s = some s1 →
          (readBlock s1.inRaw s1.file).1 = ReadResult.failed →
          copyIn s1.samples s1.inBuf s1.inRaw = some inp →
          (spectrumColumns cfg s1.h (mag inp) s1.nOut s1.fg (List.range s1.w.toNat)).2.2
            = true →
          spectrumFrame cfg term mag s =
            Step.next
              { s1 with
                w := (size term s1.calls).1, h := (size term s1.calls).2,
                inBuf := inp, file := (readBlock s1.inRaw s1.file).2.2,
                calls := s1.calls + 1,
                fg := (spectrumColumns cfg s1.h (mag inp) s1.nOut s1.fg
                        (List.range s1.w.toNat)).2.1 }
              ([Event.read s1.inRaw.length ReadResult.failed,
                Event.execute s1.w inp.length s1.inRaw.length s1.nOut s1.planIn s1.planOut]
                ++ (spectrumColumns cfg s1.h (mag inp) s1.nOut s1.fg
                      (List.range s1.w.toNat)).1
                ++ [Event.flush, Event.clear cfg.colorOff cfg.colorOff]))
      ∧ (∀ (s : WaveState) (ev : List Event), waveIter cfg term s = Step.stop ev →
          ∃ n, ev = [Event.read n ReadResult.eof, Event.closeEnd])
      ∧ (∀ (s : SpecState) (ev : List Event), spectrumFrame cfg term mag s = Step.stop ev →
          ∃ n, ev = [Event.read n ReadResult.eof, Event.closeEnd]) := by
  refine ⟨?_, ?_, waveIter_stop cfg term, spectrumFrame_stop cfg term mag⟩
  · intro s buf cells hpos hblock hres hcol
    have hbuf := readBlock_failed buf s.file hres
    unfold waveIter
    rw [if_pos (ge_iff_le.mpr hpos)]
    unfold waveBoundary
    rw [hblock]
    dsimp only
    rcases hrb : readBlock buf s.file with ⟨res, buf1, file1⟩
    rw [hrb] at hres hbuf
    simp only at hres hbuf
    subst hres
    subst hbuf
    dsimp only
    rw [hcol]
    rfl
  · intro s s1 inp hrs hres hcp hcols
    have hbuf := readBlock_failed s1.inRaw s1.file hres
    unfold spectrumFrame
    rw [hrs]
    dsimp only
    rcases hrb : readBlock s1.inRaw s1.file with ⟨res, buf1, file1⟩
    rw [hrb] at hres hbuf
    simp only at hres hbuf
    subst hres
    subst hbuf
    dsimp only
    rw [hcp]
    dsimp only
    rw [if_pos hcols]

/-! ## Instances of the conditional statements -/

theorem waveColumn_glyph_witness :
    (waveMean cfgDefault.step [0, 0] 0 = some 0 ∧ 0 ≤ wavePos 4 0)
      ∧ waveColumn cfgDefault 4 [0, 0] 0 =
          some [Event.setCell 0 (wavePos 4 0 / 2)
            (if wavePos 4 0 % 2 = 0 then Glyph.upperHalf else Glyph.lowerHalf)
            cfgDefault.colorOn cfgDefault.colorOff] := by
  have hm : waveMean cfgDefault.step [0, 0] 0 = some 0 := waveMean_eval.1
  have hvi : 0 ≤ wavePos 4 0 := by
    rw [wavePos_eval.1]
    decide
  exact ⟨⟨hm, hvi⟩, (waveColumn_glyph cfgDefault 4 [0, 0] 0 0 hm hvi).1⟩

theorem waveMean_eq_rounded_mean_witness :
    (cfgDefault.step = ((2 : Nat) : Int) ∧ 1 ≤ 2 ∧ 2 < 2 ^ 38 ∧ 1 ≤ 2
        ∧ [3, 5, -7, 9].length = 2 * 2
        ∧ (∀ x ∈ [(3 : Int), 5, -7, 9], -32768 ≤ x ∧ x ≤ 32767) ∧ 1 < 2)
      ∧ waveMean ((2 : Nat) : Int) [3, 5, -7, 9] ((1 : Nat) : Int)
          = some (f64 (columnMean 2 [3, 5, -7, 9] 1))
      ∧ waveMean ((2 : Nat) : Int) [3, 5, -7, 9] ((1 : Nat) : Int)
          = some (columnMean 2 [3, 5, -7, 9] 1) :=
  ⟨⟨by decide, by decide, by norm_num, by decide, by decide, by decide, by decide⟩,
    (waveMean_eq_rounded_mean cfgDefault 4 2 2 1 [3, 5, -7, 9] (by decide) (by decide)
      (by norm_num) (by decide) (by decide) (by decide) (by decide)).1,
    (waveMean_eq_rounded_mean cfgDefault 4 2 2 1 [3, 5, -7, 9] (by decide) (by decide)
      (by norm_num) (by decide) (by decide) (by decide) (by decide)).2.2.2 ⟨1, rfl⟩⟩

theorem spectrumBar_rows_witness :
    ((termFixed 2 2 0).2 = 2 ∧ (1 : Int) ≤ 2 ∧ (0 : Int) ≤ 3
        ∧ (3 : Int) ≤ (size (termFixed 2 2) 0).2)
      ∧ halfRows (spectrumBar 0 (size (termFixed 2 2) 0).2 3 1 0)
          = (if (3 : Int) % 2 = 1 then [2 - (3 + 1) / 2] else []) :=
  ⟨by decide,
    (spectrumBar_rows (termFixed 2 2) 0 0 2 3 1 0 (by decide) (by decide) (by decide)
      (by decide)).2.2.1⟩

theorem intensityIndex_in_range_witness :
    (ramp256 ≠ [] ∧ (1 : Int) ≤ 4 ∧ (0 : ℚ) ≤ 10)
      ∧ 0 ≤ intensityIndex ramp256.length 10 ((4 : Int) : ℚ)
      ∧ intensityIndex ramp256.length 10 ((4 : Int) : ℚ) ≤ (ramp256.length : Int) - 1
      ∧ (index ramp256 (intensityIndex ramp256.length 10 ((4 : Int) : ℚ))).isSome = true :=
  ⟨⟨by decide, by decide, by norm_num⟩,
    (intensityIndex_in_range ramp256 4 10 (by decide) (by decide) (by norm_num)).1⟩

theorem intensityIndex_truncates_witness :
    (ramp256 ≠ [] ∧ (1 : Int) ≤ 2 ∧ (0 : ℚ) ≤ 4803839602528529 / 2 ^ 55)
      ∧ intensityIndex ramp256.length (4803839602528529 / 2 ^ 55) ((2 : Int) : ℚ)
          = min ⌊f64 (f64 ((4803839602528529 / 2 ^ 55 : ℚ) / ((2 : Int) : ℚ))
                  * (((ramp256.length : Int) - 1 : Int) : ℚ))⌋
              ((ramp256.length : Int) - 1)
      ∧ f64 (f64 ((4803839602528529 / 2 ^ 55 : ℚ) / ((2 : Int) : ℚ))
            * (((ramp256.length : Int) - 1 : Int) : ℚ)) = 1
      ∧ (4803839602528529 / 2 ^ 55 : ℚ) / ((2 : Int) : ℚ)
            * (((ramp256.length : Int) - 1 : Int) : ℚ) < 1 := by
  have hl : ramp256.length = 16 := rfl
  have e1 : f64 ((4803839602528529 / 2 ^ 55 : ℚ) / ((2 : Int) : ℚ))
      = 4803839602528529 / 2 ^ 56 :=
    (f64_of_dyadic 4803839602528529 (-56) (by norm_num) (by norm_num) (by norm_num)).trans
      (by norm_num)
  have e2 : f64 ((4803839602528529 / 2 ^ 56 : ℚ) * ((((16 : Nat) : Int) - 1 : Int) : ℚ))
      = 1 := by
    rw [f64_eval (-1) 9007199254740992 (by decide) (by norm_num [abs_of_pos])
      (by norm_num [abs_of_pos]) (by norm_num [roundEven])]
    norm_num
  refine ⟨⟨by decide, by decide, by norm_num⟩,
    intensityIndex_truncates ramp256 2 (4803839602528529 / 2 ^ 55) (by decide) (by decide)
      (by norm_num), ?_, ?_⟩
  · rw [hl, e1, e2]
  · rw [hl]
    norm_num

theorem spectrumColumn_magnitude_witness :
    (spectrumColumn cfgDefault 100 (fun _ => 58000) 1 1 0
          = some (1, spectrumBar 0 100 (goInt (spectrumMag 2 58000 100)) 1 0)
        ∧ cfgDefault.scale ≠ 0
        ∧ normal64 ((58000 : ℚ) / 100000)
        ∧ normal64 (f64 ((58000 : ℚ) / 100000) * ((100 : Int) : ℚ))
        ∧ normal64 (f64 (f64 ((58000 : ℚ) / 100000) * ((100 : Int) : ℚ)) / cfgDefault.scale))
      ∧ spectrumMag cfgDefault.scale 58000 100 = 8162774324609023 / 2 ^ 48
      ∧ goInt (spectrumMag cfgDefault.scale 58000 100) = 28
      ∧ |spectrumMag cfgDefault.scale 58000 100
            - (58000 : ℚ) / 100000 / cfgDefault.scale * ((100 : Int) : ℚ)|
          ≤ 2 ^ (-51 : Int) * |(58000 : ℚ) / 100000 / cfgDefault.scale * ((100 : Int) : ℚ)| := by
  have hsc : cfgDefault.scale = 2 := rfl
  have e1 : f64 ((58000 : ℚ) / 100000) = 5224175567749775 / 2 ^ 53 := by
    rw [f64_eval (-1) 5224175567749775 (by decide) (by norm_num [abs_of_pos])
      (by norm_num [abs_of_pos]) (by norm_num [roundEven])]
    norm_num
  have e2 : f64 ((5224175567749775 / 2 ^ 53 : ℚ) * ((100 : Int) : ℚ))
      = 8162774324609023 / 2 ^ 47 := by
    rw [f64_eval 5 8162774324609023 (by decide) (by norm_num [abs_of_pos])
      (by norm_num [abs_of_pos]) (by norm_num [roundEven])]
    norm_num
  have e3 : f64 ((8162774324609023 / 2 ^ 47 : ℚ) / 2) = 8162774324609023 / 2 ^ 48 :=
    (f64_of_dyadic 8162774324609023 (-48) (by norm_num) (by norm_num) (by norm_num)).trans
      (by norm_num)
  have hv : spectrumMag cfgDefault.scale 58000 100 = 8162774324609023 / 2 ^ 48 := by
    rw [hsc]
    unfold spectrumMag
    rw [e1, e2, e3]
  have hr : spectrumColumn cfgDefault 100 (fun _ => 58000) 1 1 0
      = some (1, spectrumBar 0 100 (goInt (spectrumMag 2 58000 100)) 1 0) := by
    simp [spectrumColumn, cfgDefault]
  have hs : cfgDefault.scale ≠ 0 := by
    rw [hsc]
    norm_num
  have hn1 : normal64 ((58000 : ℚ) / 100000) :=
    Or.inr ⟨by norm_num [abs_of_pos], by norm_num [abs_of_pos]⟩
  have hn2 : normal64 (f64 ((58000 : ℚ) / 100000) * ((100 : Int) : ℚ)) := by
    rw [e1]
    exact Or.inr ⟨by norm_num [abs_of_pos], by norm_num [abs_of_pos]⟩
  have hn3 : normal64
      (f64 (f64 ((58000 : ℚ) / 100000) * ((100 : Int) : ℚ)) / cfgDefault.scale) := by
    rw [e1, e2, hsc]
    exact Or.inr ⟨by norm_num [abs_of_pos], by norm_num [abs_of_pos]⟩
  refine ⟨⟨hr, hs, hn1, hn2, hn3⟩, hv, ?_,
    (spectrumColumn_magnitude cfgDefault 100 (fun _ => 58000) 1 1 0 _ hr hs hn1 hn2
      hn3).2.2⟩
  rw [hv]
  exact goInt_eq_of_nonneg 28 (by decide) (by norm_num) (by norm_num)

theorem drawSpectrum_buffer_sizes_witness :
    (Event.execute 2 2 2 2 2 2
          ∈ (drawSpectrum cfgDefault termShrink silence
              (List.replicate 6 (Item.sample 0)) 2).1
        ∧ (2 : Int) ≤ 2)
      ∧ ((2 : Nat) : Int) = 2 ∧ ((2 : Nat) : Int) = 2 * (2 - 1)
      ∧ ((2 : Nat) : Int) = 2 * (2 - 1) ∧ 2 = 2 ∧ 2 = 2
      ∧ ∀ c : Nat, (c : Int) < 2 → c < 2 := by
  have he : Event.execute 2 2 2 2 2 2
      ∈ (drawSpectrum cfgDefault termShrink silence
          (List.replicate 6 (Item.sample 0)) 2).1 := by
    simp [drawSpectrum, spectrumInit, allocate, run, spectrumFrame, resize, size, termShrink,
      readBlock, takeSamples, copyIn, spectrumColumns, spectrumColumn, spectrumMag_eval,
      spectrumBar, loopDown, silence, cfgDefault, goInt_zero, List.range_succ,
      List.replicate]
  exact ⟨⟨he, by decide⟩,
    drawSpectrum_buffer_sizes cfgDefault termShrink silence
      (List.replicate 6 (Item.sample 0)) 2 2 2 2 2 2 2 he (by decide)⟩

theorem specAtRead_columns :
    spectrumColumns cfgDefault 4 (dft2 [25000, 25000]) 2 1 (List.range 2)
      = ([Event.setCell 0 1 Glyph.halfBar 1 0], 1, true) := by
  simp [spectrumColumns, spectrumColumn, spectrumBar, loopDown, cfgDefault, goInt_zero,
    goInt_one, List.range_succ, dft2_eval, spectrumMag_eval]
  decide

theorem read_failure_is_ignored_witness :
    ((waveAtBoundary.w ≤ waveAtBoundary.pos
        ∧ waveBlock cfgDefault (termFixed 2 2) waveAtBoundary = some waveAtBoundary.inRaw
        ∧ (readBlock waveAtBoundary.inRaw waveAtBoundary.file).1 = ReadResult.failed
        ∧ waveColumn cfgDefault (size (termFixed 2 2) waveAtBoundary.calls).2
            waveAtBoundary.inRaw 0 = some [Event.setCell 0 0 Glyph.upperHalf 1 0])
      ∧ waveIter cfgDefault (termFixed 2 2) waveAtBoundary =
          Step.next
            { pos := 1, w := (size (termFixed 2 2) waveAtBoundary.calls).1,
              h := (size (termFixed 2 2) waveAtBoundary.calls).2,
              inRaw := waveAtBoundary.inRaw,
              file := (readBlock waveAtBoundary.inRaw waveAtBoundary.file).2.2,
              calls := waveAtBoundary.calls + 1 }
            ([Event.read waveAtBoundary.inRaw.length ReadResult.failed, Event.flush,
              Event.clear cfgDefault.colorOff cfgDefault.colorOff]
              ++ [Event.setCell 0 0 Glyph.upperHalf 1 0]))
      ∧ ((resize specAtRead = some specAtRead
          ∧ (readBlock specAtRead.inRaw specAtRead.file).1 = ReadResult.failed
          ∧ copyIn specAtRead.samples specAtRead.inBuf specAtRead.inRaw
              = some [25000, 25000])
        ∧ spectrumFrame cfgDefault (termFixed 2 2) dft2 specAtRead =
            Step.next { specAtRead with file := [], calls := 3 }
              [Event.read 2 ReadResult.failed, Event.execute 2 2 2 2 2 2,
                Event.setCell 0 1 Glyph.halfBar 1 0, Event.flush, Event.clear 0 0]) := by
  have h1 : waveAtBoundary.w ≤ waveAtBoundary.pos := by decide
  have h2 : waveBlock cfgDefault (termFixed 2 2) waveAtBoundary
      = some waveAtBoundary.inRaw := by decide
  have h3 : (readBlock waveAtBoundary.inRaw waveAtBoundary.file).1 = ReadResult.failed := by
    decide
  have h4 : waveColumn cfgDefault (size (termFixed 2 2) waveAtBoundary.calls).2
      waveAtBoundary.inRaw 0 = some [Event.setCell 0 0 Glyph.upperHalf 1 0] := by
    simp [waveColumn, size, cfgDefault, termFixed, waveAtBoundary, waveCell,
      waveMean_eval, wavePos_eval]
    decide
  have e : specAtRead.w.toNat = 2 := by decide
  have g1 : resize specAtRead = some specAtRead := by simp [resize, specAtRead]
  have g2 : (readBlock specAtRead.inRaw specAtRead.file).1 = ReadResult.failed := by decide
  have g3 : copyIn specAtRead.samples specAtRead.inBuf specAtRead.inRaw
      = some [25000, 25000] := by
    simp [copyIn, specAtRead]
  have g4 : (spectrumColumns cfgDefault specAtRead.h (dft2 [25000, 25000]) specAtRead.nOut
      specAtRead.fg (List.range specAtRead.w.toNat)).2.2 = true := by
    rw [e]
    simp only [specAtRead]
    rw [specAtRead_columns]
  refine ⟨⟨⟨h1, h2, h3, h4⟩,
    (read_failure_is_ignored cfgDefault (termFixed 2 2) dft2).1 waveAtBoundary
      waveAtBoundary.inRaw _ h1 h2 h3 h4⟩, ⟨g1, g2, g3⟩, ?_⟩
  rw [(read_failure_is_ignored cfgDefault (termFixed 2 2) dft2).2.1 specAtRead
    specAtRead [25000, 25000] g1 g2 g3 g4, e]
  simp only [specAtRead]
  rw [specAtRead_columns]
  simp [size, termFixed, readBlock, takeSamples, cfgDefault]


end Mpdviz
